import Mathlib

/-!
Shallow embedding of net/proxy/single_threaded_proxy_resolver.cc (Chromium).

The component is a single-worker-thread request serializer: the
SingleThreadedProxyResolver ("Dispatcher") keeps a FIFO queue of Jobs,
lazily starts one worker thread, and runs the wrapped ProxyResolver
("Resolution Engine") on the worker one job at a time.  Results are
posted back to the origin thread, where Job::QueryComplete delivers them.

Modelling choices:
  * URLs, PAC bytes, ProxyInfo values and output-slot identities are
    Nats; result codes are Int (OK = 0, ERR_IO_PENDING = -1 as in
    net_errors.h).
  * The two message loops (worker thread, origin thread) are FIFO task
    lists in the state; running the front task of a loop is an explicit
    step, which models Chromium's in-order task delivery.
  * The nondeterministic environment (the engine's result code and
    ProxyInfo value, and whether the user callback cancels the job, as a
    destroyed ProxyService would) is supplied as action parameters.
  * Observable behaviour is recorded in an append-only event trace;
    ghost fields postedLog / executedLog / startedLog record the order
    in which worker tasks were posted / executed and jobs were started.
  * C++ DCHECKs become step preconditions (the step is disabled) and
    reference counting is not modelled (no aliasing exists in the model).
-/

namespace STPR

/-- Result code for success (net::OK). -/
def OK : Int := 0

/-- Result code net::ERR_IO_PENDING. -/
def ERR_IO_PENDING : Int := -1

/-- One in-flight request, mirroring SingleThreadedProxyResolver::Job.
The three cleared-on-Cancel pointers (coordinator_, callback_, results_)
are modelled as a Bool (non-null?), a Bool (non-null?), and an
Option Nat (identity of the caller-owned output slot).  The private
scratch buffer results_buf_ is a plain value, default-constructed to 0. -/
structure Job where
  coordinator : Bool
  callback : Bool
  results : Option Nat
  url : Nat
  is_started : Bool
  results_buf : Nat
deriving Repr, DecidableEq

/-- Job::Cancel: clear coordinator_, callback_ and results_ so that
QueryComplete knows not to touch them. -/
def Job.cancel (j : Job) : Job :=
  { j with coordinator := false, callback := false, results := none }

/-- Job::was_cancelled: the cancelled state is encoded as callback_ == NULL. -/
def Job.was_cancelled (j : Job) : Bool := !j.callback

/-- A task sitting in the worker thread's message loop: either a posted
Job::DoQuery, or a SetPacScriptTask carrying a pac_url and bytes. -/
inductive WTask where
  | doQuery (jid : Nat)
  | setPacScript (pac_url : Nat) (bytes : Nat)
deriving Repr, DecidableEq

/-- A task sitting in the origin thread's message loop: a posted
Job::QueryComplete carrying the engine's result code. -/
inductive OTask where
  | queryComplete (jid : Nat) (rv : Int)
deriving Repr, DecidableEq

/-- Observable events, in the order they occur. -/
inductive Event where
  | submitted (jid : Nat)
  | threadStarted
  | jobStarted (jid : Nat)
  | cancelled (jid : Nat)
  | engineQuery (jid : Nat) (url : Nat)
  | engineSetPacByUrl (u : Nat)
  | engineSetPacByData (b : Nat)
  | outputWritten (jid : Nat) (slot : Nat) (v : Nat)
  | callbackRun (jid : Nat) (rv : Int)
  | jobTouchedDispatcher (jid : Nat)
deriving Repr, DecidableEq

/-- The whole two-thread system: the Dispatcher's fields (pending_jobs_,
thread_), every Job ever allocated (keyed by its handle), both message
loops, the caller-owned output slots, the event trace, and ghost logs. -/
structure State where
  expects_pac_bytes : Bool
  jobs : Nat → Option Job
  next_job_id : Nat
  pending_jobs : List Nat
  thread_started : Bool
  thread_start_count : Nat
  workerQueue : List WTask
  originQueue : List OTask
  slots : Nat → Nat
  events : List Event
  postedLog : List WTask
  executedLog : List WTask
  startedLog : List Nat

/-- The initial state: no jobs, no worker thread, caller-owned slots
hold their pre-call values slots0. -/
def initState (epb : Bool) (slots0 : Nat → Nat) : State :=
  { expects_pac_bytes := epb
    jobs := fun _ => none
    next_job_id := 0
    pending_jobs := []
    thread_started := false
    thread_start_count := 0
    workerQueue := []
    originQueue := []
    slots := slots0
    events := []
    postedLog := []
    executedLog := []
    startedLog := [] }

/-- Look up a job by handle. -/
def getJob (s : State) (jid : Nat) : Option Job := s.jobs jid

/-- Replace the job stored under a handle. -/
def setJob (s : State) (jid : Nat) (j : Job) : State :=
  { s with jobs := fun j' => if j' = jid then some j else s.jobs j' }

/-- Whether the job under this handle exists and has is_started_ set. -/
def isStarted (s : State) (jid : Nat) : Bool :=
  match s.jobs jid with
  | none => false
  | some j => j.is_started

/-- Whether the job under this handle exists and was cancelled. -/
def wasCancelled (s : State) (jid : Nat) : Bool :=
  match s.jobs jid with
  | none => false
  | some j => j.was_cancelled

/-- Post a task to the worker thread's message loop (also recording it
in the ghost postedLog). -/
def postToWorker (s : State) (t : WTask) : State :=
  { s with workerQueue := s.workerQueue ++ [t], postedLog := s.postedLog ++ [t] }

/-- SingleThreadedProxyResolver::EnsureThreadStarted: lazily create and
start the worker thread if it does not exist yet. -/
def ensureThreadStarted (s : State) : State :=
  if s.thread_started then s
  else
    { s with thread_started := true,
             thread_start_count := s.thread_start_count + 1,
             events := s.events ++ [Event.threadStarted] }

/-- Job::Start: set is_started_ and post DoQuery to the worker loop. -/
def jobStart (s : State) (jid : Nat) : State :=
  match s.jobs jid with
  | none => s
  | some j =>
      let s1 := setJob s jid { j with is_started := true }
      let s2 := postToWorker s1 (WTask.doQuery jid)
      { s2 with events := s2.events ++ [Event.jobStarted jid],
                startedLog := s2.startedLog ++ [jid] }

/-- SingleThreadedProxyResolver::ProcessPendingJobs: if the queue is
nonempty and its front job is not yet started, ensure the worker thread
runs and start the front job. -/
def processPendingJobs (s : State) : State :=
  match s.pending_jobs.head? with
  | none => s
  | some f => if isStarted s f then s else jobStart (ensureThreadStarted s) f

/-- SingleThreadedProxyResolver::RemoveFrontOfJobsQueueAndStartNext:
pop the front of pending_jobs_ and process the queue again. -/
def removeFrontOfJobsQueueAndStartNext (s : State) : State :=
  processPendingJobs { s with pending_jobs := s.pending_jobs.tail }

/-- Job::Cancel as invoked through a Job reference held by the
dispatcher or the completion path, recording the cancellation event. -/
def cancelJobRefs (s : State) (jid : Nat) : State :=
  match s.jobs jid with
  | none => s
  | some j =>
      { setJob s jid j.cancel with events := s.events ++ [Event.cancelled jid] }

/-- SingleThreadedProxyResolver::GetProxyForURL: allocate a Job holding
the url, the caller's output slot and (non-null, DCHECKed) callback,
push it at the tail of pending_jobs_, process the queue, and return
ERR_IO_PENDING together with the request handle. -/
def getProxyForURL (s : State) (url : Nat) (slot : Nat) : Int × Nat × State :=
  let jid := s.next_job_id
  let job : Job :=
    { coordinator := true, callback := true, results := some slot,
      url := url, is_started := false, results_buf := 0 }
  let s1 : State :=
    { s with jobs := fun j' => if j' = jid then some job else s.jobs j',
             next_job_id := jid + 1,
             pending_jobs := s.pending_jobs ++ [jid],
             events := s.events ++ [Event.submitted jid] }
  (ERR_IO_PENDING, jid, processPendingJobs s1)

/-- SingleThreadedProxyResolver::CancelRequest: cancel the job; if it
was the active job (started and at the front of the queue) advance the
queue, otherwise erase it from the queue. -/
def cancelRequest (s : State) (jid : Nat) : State :=
  let is_active := isStarted s jid && (s.pending_jobs.head? == some jid)
  let s1 := cancelJobRefs s jid
  if is_active then removeFrontOfJobsQueueAndStartNext s1
  else { s1 with pending_jobs := s1.pending_jobs.erase jid }

/-- SingleThreadedProxyResolver::SetPacScriptHelper: ensure the worker
thread runs and post a SetPacScriptTask to it. -/
def setPacScriptHelper (s : State) (pac_url : Nat) (bytes : Nat) : State :=
  postToWorker (ensureThreadStarted s) (WTask.setPacScript pac_url bytes)

/-- SingleThreadedProxyResolver::SetPacScriptByUrlInternal. -/
def setPacScriptByUrlInternal (s : State) (pac_url : Nat) : State :=
  setPacScriptHelper s pac_url 0

/-- SingleThreadedProxyResolver::SetPacScriptByDataInternal. -/
def setPacScriptByDataInternal (s : State) (bytes : Nat) : State :=
  setPacScriptHelper s 0 bytes

/-- The body of results_ -> Use(results_buf_) for a given job record:
copy the job's scratch buffer into the caller-owned output slot. -/
def useResults (s : State) (jid : Nat) (j : Job) : State :=
  match j.results with
  | none => s
  | some slot =>
      { s with slots := fun k => if k = slot then j.results_buf else s.slots k,
               events := s.events ++ [Event.outputWritten jid slot j.results_buf] }

/-- Copy a job's scratch buffer into the caller-owned output slot. -/
def writeOutput (s : State) (jid : Nat) : State :=
  match s.jobs jid with
  | none => s
  | some j => useResults s jid j

/-- The delivery half of Job::QueryComplete: write the output slot when
the result code denotes success, then run the completion callback. -/
def qcDeliver (s : State) (jid : Nat) (rv : Int) : State :=
  let s1 := if OK ≤ rv then writeOutput s jid else s
  { s1 with events := s1.events ++ [Event.callbackRun jid rv] }

/-- What the user callback did: if cbCancels, it cancelled this job
(for instance by destroying the owning ProxyService, whose destructor
cancels it). -/
def qcAfterCallback (s : State) (jid : Nat) (cbCancels : Bool) : State :=
  if cbCancels then cancelJobRefs s jid else s

/-- Job::QueryComplete running on the origin thread.  The code re-checks
was_cancelled after the callback before touching the coordinator. -/
def queryComplete (s : State) (jid : Nat) (rv : Int) (cbCancels : Bool) : State :=
  if wasCancelled s jid then s
  else
    let s3 := qcAfterCallback (qcDeliver s jid rv) jid cbCancels
    if wasCancelled s3 jid then s3
    else
      removeFrontOfJobsQueueAndStartNext
        { s3 with events := s3.events ++ [Event.jobTouchedDispatcher jid] }

/-- The worker thread runs the front task of its message loop.  For a
DoQuery task the engine's answer (rv, info) is supplied by the
environment; rv = ERR_IO_PENDING is DCHECKed against.  For a
SetPacScriptTask the engine is configured by data or by url according
to expects_pac_bytes. -/
def workerRunFront (s : State) (rv : Int) (info : Nat) : Option State :=
  match s.workerQueue with
  | [] => none
  | t :: rest =>
      let s1 : State := { s with workerQueue := rest, executedLog := s.executedLog ++ [t] }
      match t with
      | WTask.doQuery jid =>
          if rv = ERR_IO_PENDING then none
          else
            match s.jobs jid with
            | none => none
            | some j =>
                some { setJob s1 jid { j with results_buf := info } with
                         events := s1.events ++ [Event.engineQuery jid j.url],
                         originQueue := s1.originQueue ++ [OTask.queryComplete jid rv] }
      | WTask.setPacScript u b =>
          some { s1 with
                   events := s1.events ++
                     [if s.expects_pac_bytes then Event.engineSetPacByData b
                      else Event.engineSetPacByUrl u] }

/-- The origin thread runs the front task of its message loop. -/
def originRunFront (s : State) (cbCancels : Bool) : Option State :=
  match s.originQueue with
  | [] => none
  | OTask.queryComplete jid rv :: rest =>
      some (queryComplete { s with originQueue := rest } jid rv cbCancels)

/-- Environment actions driving the system. -/
inductive Action where
  | submit (url : Nat) (slot : Nat)
  | cancel (jid : Nat)
  | setPacByUrl (u : Nat)
  | setPacByData (b : Nat)
  | workerStep (rv : Int) (info : Nat)
  | originStep (cbCancels : Bool)
deriving Repr, DecidableEq

/-- One step of the system; none when the action's precondition fails
(cancelling an unknown or already-completed handle, running an empty
loop, or the engine violating the no-ERR_IO_PENDING contract). -/
def step (s : State) : Action → Option State
  | Action.submit url slot => some (getProxyForURL s url slot).2.2
  | Action.cancel jid =>
      if (s.jobs jid).isSome && s.pending_jobs.contains jid
      then some (cancelRequest s jid) else none
  | Action.setPacByUrl u => some (setPacScriptByUrlInternal s u)
  | Action.setPacByData b => some (setPacScriptByDataInternal s b)
  | Action.workerStep rv info => workerRunFront s rv info
  | Action.originStep cbCancels => originRunFront s cbCancels

/-- Run a list of actions from a state. -/
def run (s : State) : List Action → Option State
  | [] => some s
  | a :: acts => (step s a).bind (fun s' => run s' acts)

/-- A state is reachable when some action sequence produces it from an
initial state. -/
def Reachable (s : State) : Prop :=
  ∃ epb slots0 acts, run (initState epb slots0) acts = some s

/-! ### Counting helpers -/

/-- Does this worker task run DoQuery for the given job? -/
def isDoQueryFor (jid : Nat) : WTask → Bool
  | WTask.doQuery j => j == jid
  | _ => false

/-- Does this origin task run QueryComplete for the given job? -/
def isQCFor (jid : Nat) : OTask → Bool
  | OTask.queryComplete j _ => j == jid

/-- Is this event a completion-callback invocation for the given job? -/
def isCbFor (jid : Nat) : Event → Bool
  | Event.callbackRun j _ => j == jid
  | _ => false

/-- Number of DoQuery tasks for a job sitting in the worker loop. -/
def wCount (s : State) (jid : Nat) : Nat := s.workerQueue.countP (isDoQueryFor jid)

/-- Number of QueryComplete tasks for a job sitting in the origin loop. -/
def qCount (s : State) (jid : Nat) : Nat := s.originQueue.countP (isQCFor jid)

/-- Number of completion-callback invocations for a job so far. -/
def cbCount (s : State) (jid : Nat) : Nat := s.events.countP (isCbFor jid)

/-- The Job record built by GetProxyForURL. -/
def submitJob (url slot : Nat) : Job :=
  { coordinator := true, callback := true, results := some slot,
    url := url, is_started := false, results_buf := 0 }

/-- The state right after GetProxyForURL pushes the new Job, before
ProcessPendingJobs runs. -/
def submitState (s : State) (url : Nat) (slot : Nat) : State :=
  { s with jobs := fun k => if k = s.next_job_id then some (submitJob url slot) else s.jobs k,
           next_job_id := s.next_job_id + 1,
           pending_jobs := s.pending_jobs ++ [s.next_job_id],
           events := s.events ++ [Event.submitted s.next_job_id] }

/-- Does this event represent the given Job touching the caller's
callback, the caller's output slot, or the Dispatcher? -/
def touchesJob (jid : Nat) : Event → Bool
  | Event.callbackRun j _ => j == jid
  | Event.outputWritten j _ _ => j == jid
  | Event.jobTouchedDispatcher j => j == jid
  | _ => false

/-- Teardown events of the Dispatcher destructor. -/
inductive TEvent where
  | jobCancelled (jid : Nat)
  | workerReleased
  | resolverReleased
deriving Repr, DecidableEq

/-- Whether a Job's three cross-references have all been cleared. -/
def Job.cleared (j : Job) : Bool :=
  !j.coordinator && !j.callback && j.results.isNone

/-- The loop body of the SingleThreadedProxyResolver destructor: call
Cancel on every job still in pending_jobs_, in queue order. -/
def dtorCancelAll : List Nat → (Nat → Option Job) → (Nat → Option Job) × List TEvent
  | [], jobs => (jobs, [])
  | jid :: rest, jobs =>
      let jobs1 : Nat → Option Job := fun k =>
        if k = jid then (jobs jid).map Job.cancel else jobs k
      let r := dtorCancelAll rest jobs1
      (r.1, TEvent.jobCancelled jid :: r.2)

/-- Modelled from the spec: the Dispatcher destructor.  Its body (the
cancellation loop) is in the source; the subsequent member destruction
order is determined by the member declaration order in the class
declaration (the header file, which is not part of the excerpt).  The
source comment in the destructor and the spec both state that the
worker thread (thread_) is destroyed before the Resolution Engine
(resolver_), so the model releases the Worker and then the engine. -/
def destructor (s : State) : (Nat → Option Job) × List TEvent :=
  let r := dtorCancelAll s.pending_jobs s.jobs
  (r.1, r.2 ++ [TEvent.workerReleased, TEvent.resolverReleased])

/-- One step either leaves the worker-thread fields alone, or performs
the single lazy start. -/
def ThreadStep (s s' : State) : Prop :=
  (s'.thread_started = s.thread_started ∧
    s'.thread_start_count = s.thread_start_count) ∨
  (s.thread_started = false ∧ s'.thread_started = true ∧
    s'.thread_start_count = s.thread_start_count + 1)

/-- A small concrete run used to instantiate the theorems. -/
def exInit : State := initState false (fun _ => 0)

/-- State after submitting one query (url 5, output slot 0). -/
def exS1 : State := (getProxyForURL exInit 5 0).2.2

/-- State after additionally submitting a second query (url 6, slot 1). -/
def exS2 : State := (getProxyForURL exS1 6 1).2.2

/-- State after cancelling the queued (not started) job 1 in exS2. -/
def exS3 : State := cancelRequest exS2 1

/-- State after the worker answers job 0 with code 1 and info 7. -/
def exS4 : State := (workerRunFront exS3 1 7).getD exInit

/-- State after the origin loop delivers job 0's completion. -/
def exS5 : State := (originRunFront exS4 false).getD exInit

/-- Variant of exS5 where the user callback cancels the completing job
(as a ProxyService destruction would). -/
def exS5b : State := (originRunFront exS4 true).getD exInit

/-- The action trace behind exS5. -/
def exActs : List Action :=
  [Action.submit 5 0, Action.submit 6 1, Action.cancel 1,
   Action.workerStep 1 7, Action.originStep false]

/-- Trace showing a configure call overtaking an earlier-submitted,
still-queued query: submit two queries, then configure by data; the
worker executes the configure before the second query. -/
def c8Acts : List Action :=
  [Action.submit 10 0, Action.submit 11 1, Action.setPacByData 7,
   Action.workerStep 0 5, Action.workerStep 0 0, Action.originStep false,
   Action.workerStep 0 6]

/-- The final state of the c8Acts trace. -/
def c8Final : State :=
  (run (initState true (fun _ => 0)) c8Acts).getD (initState true (fun _ => 0))

/-! ### The reachability invariant -/

/-- The system invariant, minus the front-of-queue-is-started clause
(which is momentarily broken between popping the front job and the
subsequent ProcessPendingJobs call). -/
structure PreInv (s : State) : Prop where
  alloc : ∀ j, (s.jobs j).isSome ↔ j < s.next_job_id
  sorted : s.pending_jobs.Pairwise (· < ·)
  pendingAlloc : ∀ j ∈ s.pending_jobs, j < s.next_job_id
  startedMin : ∀ j, isStarted s j = true → ∀ i ∈ s.pending_jobs, j ≤ i
  threadCount : s.thread_start_count = if s.thread_started then 1 else 0
  logInv : s.executedLog ++ s.workerQueue = s.postedLog
  startedLogBound : ∀ x ∈ s.startedLog, x < s.next_job_id
  startedLogLt : ∀ x ∈ s.startedLog, ∀ y ∈ s.pending_jobs,
      isStarted s y = false → x < y
  startedChain : s.startedLog.Pairwise (· < ·)
  refsConsistent : ∀ j jb, s.jobs j = some jb →
      jb.coordinator = jb.callback ∧ (jb.results).isSome = jb.callback
  cancelEvents : ∀ j, wasCancelled s j = true ↔ Event.cancelled j ∈ s.events
  counts0 : ∀ j, isStarted s j = false →
      wCount s j = 0 ∧ qCount s j = 0 ∧ cbCount s j = 0
  countsLe : ∀ j, wCount s j + qCount s j + cbCount s j ≤ 1
  livePending : ∀ j, isStarted s j = true → wasCancelled s j = false →
      cbCount s j = 0 → j ∈ s.pending_jobs

/-- The full system invariant of reachable states. -/
structure Inv (s : State) extends PreInv s : Prop where
  frontStarted : ∀ f, s.pending_jobs.head? = some f → isStarted s f = true

theorem inv_init (epb : Bool) (slots0 : Nat → Nat) : Inv (initState epb slots0) := by
  constructor
  · constructor <;> simp [initState, isStarted, wasCancelled, wCount, qCount, cbCount]
  · simp [initState]

/-! ### Shape lemmas for the primitive operations -/

theorem isStarted_mk (s : State) (jid : Nat) :
    isStarted s jid = ((s.jobs jid).map Job.is_started).getD false := by
  unfold isStarted; cases s.jobs jid <;> rfl

theorem wasCancelled_mk (s : State) (jid : Nat) :
    wasCancelled s jid = ((s.jobs jid).map Job.was_cancelled).getD false := by
  unfold wasCancelled; cases s.jobs jid <;> rfl

theorem ensureThreadStarted_of_started (s : State) (h : s.thread_started = true) :
    ensureThreadStarted s = s := by
  unfold ensureThreadStarted; rw [h]; rfl

theorem ensureThreadStarted_of_not_started (s : State) (h : s.thread_started = false) :
    ensureThreadStarted s =
      { s with thread_started := true,
               thread_start_count := s.thread_start_count + 1,
               events := s.events ++ [Event.threadStarted] } := by
  unfold ensureThreadStarted; rw [h]; rfl

theorem jobStart_eq (s : State) (jid : Nat) (j : Job) (h : s.jobs jid = some j) :
    jobStart s jid =
      { s with jobs := fun k => if k = jid then some { j with is_started := true } else s.jobs k,
               workerQueue := s.workerQueue ++ [WTask.doQuery jid],
               postedLog := s.postedLog ++ [WTask.doQuery jid],
               events := s.events ++ [Event.jobStarted jid],
               startedLog := s.startedLog ++ [jid] } := by
  unfold jobStart; rw [h]; rfl

theorem cancelJobRefs_eq (s : State) (jid : Nat) (j : Job) (h : s.jobs jid = some j) :
    cancelJobRefs s jid =
      { s with jobs := fun k => if k = jid then some j.cancel else s.jobs k,
               events := s.events ++ [Event.cancelled jid] } := by
  unfold cancelJobRefs; rw [h]; rfl

/-! ### Invariant preservation, generic building blocks -/

/-- Appending events that are neither callback invocations nor
cancellations preserves the invariant. -/
theorem preInv_events_neutral {s : State} (h : PreInv s) (ev : List Event)
    (hcb : ∀ j, ev.countP (isCbFor j) = 0)
    (hcan : ∀ j, Event.cancelled j ∉ ev) :
    PreInv { s with events := s.events ++ ev } := by
  obtain ⟨ha, hs, hp, hm, ht, hl, hb, hlt, hch, hrc, hce, hc0, hcl, hlp⟩ := h
  have hcb' : ∀ j, cbCount { s with events := s.events ++ ev } j = cbCount s j := by
    intro j; simp [cbCount, List.countP_append, hcb]
  refine ⟨ha, hs, hp, hm, ht, hl, hb, hlt, hch, hrc, ?_, ?_, ?_, ?_⟩
  · intro j
    show wasCancelled s j = true ↔ _
    rw [hce j]
    simp only [List.mem_append]
    exact ⟨fun hmem => Or.inl hmem, fun hmem => hmem.elim id (fun hx => absurd hx (hcan j))⟩
  · intro j hj
    have := hc0 j hj
    exact ⟨this.1, this.2.1, by rw [hcb' j]; exact this.2.2⟩
  · intro j
    have := hcl j
    show wCount s j + qCount s j + _ ≤ 1
    rw [hcb' j]; exact this
  · intro j hst hwc hcb0
    exact hlp j hst hwc (by rw [hcb' j] at hcb0; exact hcb0)

theorem inv_events_neutral {s : State} (h : Inv s) (ev : List Event)
    (hcb : ∀ j, ev.countP (isCbFor j) = 0)
    (hcan : ∀ j, Event.cancelled j ∉ ev) :
    Inv { s with events := s.events ++ ev } :=
  ⟨preInv_events_neutral h.toPreInv ev hcb hcan, h.frontStarted⟩

/-- EnsureThreadStarted preserves the invariant. -/
theorem preInv_ensureThreadStarted {s : State} (h : PreInv s) :
    PreInv (ensureThreadStarted s) := by
  by_cases hts : s.thread_started
  · rw [ensureThreadStarted_of_started s hts]; exact h
  · rw [ensureThreadStarted_of_not_started s (by simpa using hts)]
    have h1 := preInv_events_neutral h [Event.threadStarted]
      (by intro j; rfl) (by intro j; simp)
    obtain ⟨ha, hs, hp, hm, ht, hl, hb, hlt, hch, hrc, hce, hc0, hcl, hlp⟩ := h1
    exact ⟨ha, hs, hp, hm, by simp [hts] at ht ⊢; omega, hl, hb, hlt, hch, hrc, hce, hc0,
      hcl, hlp⟩

theorem inv_ensureThreadStarted {s : State} (h : Inv s) :
    Inv (ensureThreadStarted s) := by
  refine ⟨preInv_ensureThreadStarted h.toPreInv, ?_⟩
  intro f hf
  by_cases hts : s.thread_started
  · rw [ensureThreadStarted_of_started s hts] at hf ⊢; exact h.frontStarted f hf
  · rw [ensureThreadStarted_of_not_started s (by simpa using hts)] at hf ⊢
    exact h.frontStarted f hf

theorem ensureThreadStarted_jobs (s : State) : (ensureThreadStarted s).jobs = s.jobs := by
  unfold ensureThreadStarted; split <;> rfl

theorem ensureThreadStarted_pending (s : State) :
    (ensureThreadStarted s).pending_jobs = s.pending_jobs := by
  unfold ensureThreadStarted; split <;> rfl

theorem isStarted_ensureThreadStarted (s : State) (jid : Nat) :
    isStarted (ensureThreadStarted s) jid = isStarted s jid := by
  rw [isStarted_mk, isStarted_mk, ensureThreadStarted_jobs]

theorem head?_mem {l : List Nat} {f : Nat} (h : l.head? = some f) : f ∈ l := by
  cases l with
  | nil => simp at h
  | cons a t =>
      simp only [List.head?_cons, Option.some.injEq] at h
      rw [← h]; exact List.mem_cons_self a t

/-- Starting an unstarted front job preserves the invariant (and makes
the front started).  The primed state is given by field equations so
that the lemma applies to any record spelling of jobStart's result. -/
theorem inv_start_generic {s s' : State} (h : PreInv s) {f : Nat} {j : Job}
    (hj : s.jobs f = some j)
    (hf : s.pending_jobs.head? = some f) (hns : isStarted s f = false)
    (e1 : s'.jobs = fun k => if k = f then some { j with is_started := true } else s.jobs k)
    (e2 : s'.pending_jobs = s.pending_jobs)
    (e3 : s'.workerQueue = s.workerQueue ++ [WTask.doQuery f])
    (e4 : s'.originQueue = s.originQueue)
    (e5 : s'.events = s.events ++ [Event.jobStarted f])
    (e6 : s'.postedLog = s.postedLog ++ [WTask.doQuery f])
    (e7 : s'.executedLog = s.executedLog)
    (e8 : s'.startedLog = s.startedLog ++ [f])
    (e9 : s'.next_job_id = s.next_job_id)
    (e10 : s'.thread_started = s.thread_started)
    (e11 : s'.thread_start_count = s.thread_start_count) :
    Inv s' := by
  have hmem : f ∈ s.pending_jobs := head?_mem hf
  have halloc : f < s.next_job_id := h.pendingAlloc f hmem
  obtain ⟨hw0, hq0, hcb0⟩ := h.counts0 f hns
  obtain ⟨t, hpend⟩ : ∃ t, s.pending_jobs = f :: t := by
    cases hl : s.pending_jobs with
    | nil => rw [hl] at hf; simp at hf
    | cons a u =>
        rw [hl] at hf
        simp only [List.head?_cons, Option.some.injEq] at hf
        rw [← hf]; exact ⟨u, rfl⟩
  have hflt : ∀ y ∈ t, f < y := by
    have hsor := h.sorted; rw [hpend] at hsor
    exact (List.pairwise_cons.mp hsor).1
  have hist : ∀ y, isStarted s' y = if y = f then true else isStarted s y := by
    intro y
    rw [isStarted_mk, isStarted_mk, e1]
    by_cases hy : y = f <;> simp [hy]
  have hwc : ∀ y, wasCancelled s' y = wasCancelled s y := by
    intro y
    rw [wasCancelled_mk, wasCancelled_mk, e1]
    by_cases hy : y = f
    · subst hy; simp [hj, Job.was_cancelled]
    · simp [hy]
  have hwC : ∀ y, wCount s' y = wCount s y + (if y = f then 1 else 0) := by
    intro y
    simp only [wCount, e3, List.countP_append]
    by_cases hy : y = f
    · simp [hy, isDoQueryFor]
    · simp only [if_neg hy, isDoQueryFor, List.countP_cons, List.countP_nil]
      have : (f == y) = false := by simp; omega
      simp [this]
  have hqC : ∀ y, qCount s' y = qCount s y := by
    intro y; simp only [qCount, e4]
  have hcbC : ∀ y, cbCount s' y = cbCount s y := by
    intro y; simp [cbCount, e5, List.countP_append, isCbFor]
  refine ⟨⟨?_, ?_, ?_, ?_, ?_, ?_, ?_, ?_, ?_, ?_, ?_, ?_, ?_, ?_⟩, ?_⟩
  · intro k
    rw [e1, e9]
    by_cases hk : k = f
    · subst hk; simpa using halloc
    · simpa [hk] using h.alloc k
  · rw [e2]; exact h.sorted
  · rw [e2, e9]; exact h.pendingAlloc
  · intro y hy i hi
    rw [e2] at hi
    rw [hist y] at hy
    by_cases hyf : y = f
    · subst hyf
      rw [hpend] at hi
      rcases List.mem_cons.mp hi with hif | hit
      · omega
      · exact Nat.le_of_lt (hflt i hit)
    · rw [if_neg hyf] at hy
      exact h.startedMin y hy i hi
  · rw [e10, e11]; exact h.threadCount
  · rw [e7, e3, e6, ← List.append_assoc, h.logInv]
  · intro x hx
    rw [e8] at hx; rw [e9]
    rcases List.mem_append.mp hx with hx | hx
    · exact h.startedLogBound x hx
    · simp only [List.mem_singleton] at hx; omega
  · intro x hx y hy hns'
    rw [e8] at hx; rw [e2] at hy
    rw [hist y] at hns'
    by_cases hyf : y = f
    · rw [if_pos hyf] at hns'; cases hns'
    · rw [if_neg hyf] at hns'
      rcases List.mem_append.mp hx with hx | hx
      · exact h.startedLogLt x hx y hy hns'
      · simp only [List.mem_singleton] at hx; subst hx
        rw [hpend] at hy
        rcases List.mem_cons.mp hy with hyf' | hyt
        · exact absurd hyf' hyf
        · exact hflt y hyt
  · rw [e8]
    rw [List.pairwise_append]
    refine ⟨h.startedChain, List.pairwise_singleton _ _, ?_⟩
    intro x hx y hy
    simp only [List.mem_singleton] at hy
    rw [hy]
    exact h.startedLogLt x hx f hmem hns
  · intro k jb hjb
    simp only [e1] at hjb
    by_cases hk : k = f
    · rw [if_pos hk] at hjb
      injection hjb with hjb
      rw [← hjb]
      exact h.refsConsistent f j hj
    · rw [if_neg hk] at hjb
      exact h.refsConsistent k jb hjb
  · intro y
    rw [hwc y, e5]
    rw [h.cancelEvents y]
    simp
  · intro y hy
    rw [hist y] at hy
    by_cases hyf : y = f
    · rw [if_pos hyf] at hy; cases hy
    · rw [if_neg hyf] at hy
      obtain ⟨w0, q0, c0⟩ := h.counts0 y hy
      rw [hwC y, hqC y, hcbC y, if_neg hyf]
      exact ⟨by omega, q0, c0⟩
  · intro y
    rw [hwC y, hqC y, hcbC y]
    by_cases hyf : y = f
    · subst hyf; simp [hw0, hq0, hcb0]
    · rw [if_neg hyf]
      have := h.countsLe y; omega
  · intro y hy hyc hy0
    rw [e2]
    rw [hist y] at hy
    by_cases hyf : y = f
    · subst hyf; exact hmem
    · rw [if_neg hyf] at hy
      rw [hwc y] at hyc
      rw [hcbC y] at hy0
      exact h.livePending y hy hyc hy0
  · intro g hg
    rw [e2, hf] at hg
    injection hg with hg
    rw [hist g, if_pos hg.symm]

/-- ProcessPendingJobs restores the full invariant from the weak one. -/
theorem inv_processPendingJobs {s : State} (h : PreInv s) :
    Inv (processPendingJobs s) := by
  cases hh : s.pending_jobs.head? with
  | none =>
      have hred : processPendingJobs s = s := by
        unfold processPendingJobs; rw [hh]
      rw [hred]
      exact ⟨h, by intro f hf; rw [hh] at hf; cases hf⟩
  | some f =>
      by_cases hst : isStarted s f = true
      · have hred : processPendingJobs s = s := by
          unfold processPendingJobs; rw [hh]; exact if_pos hst
        rw [hred]
        refine ⟨h, ?_⟩
        intro g hg
        rw [hh] at hg; injection hg with hg; rw [← hg]; exact hst
      · have hred : processPendingJobs s = jobStart (ensureThreadStarted s) f := by
          unfold processPendingJobs; rw [hh]; exact if_neg hst
        rw [hred]
        replace hst : isStarted s f = false := by simpa using hst
        have hE := preInv_ensureThreadStarted h
        have hjf : (ensureThreadStarted s).pending_jobs.head? = some f := by
          rw [ensureThreadStarted_pending]; exact hh
        have hns : isStarted (ensureThreadStarted s) f = false := by
          rw [isStarted_ensureThreadStarted]; exact hst
        have hmem : f ∈ s.pending_jobs := head?_mem hh
        have halloc : f < s.next_job_id := h.pendingAlloc f hmem
        have hsome : (s.jobs f).isSome := (h.alloc f).mpr halloc
        obtain ⟨j, hj⟩ := Option.isSome_iff_exists.mp hsome
        have hj' : (ensureThreadStarted s).jobs f = some j := by
          rw [ensureThreadStarted_jobs]; exact hj
        rw [jobStart_eq (ensureThreadStarted s) f j hj']
        exact inv_start_generic hE hj' hjf hns rfl rfl rfl rfl rfl rfl rfl rfl rfl rfl rfl

/-- Popping the front job preserves the weak invariant provided that
the front job is cancelled or its completion callback has already run. -/
theorem preInv_popFront {s : State} (h : Inv s)
    (hdone : ∀ f, s.pending_jobs.head? = some f →
        wasCancelled s f = true ∨ 1 ≤ cbCount s f) :
    PreInv { s with pending_jobs := s.pending_jobs.tail } := by
  have hsub : s.pending_jobs.tail.Sublist s.pending_jobs := List.tail_sublist _
  have hmem : ∀ j, j ∈ s.pending_jobs.tail → j ∈ s.pending_jobs :=
    fun j hj => hsub.mem hj
  refine ⟨h.alloc, h.sorted.sublist hsub, ?_, ?_, h.threadCount, h.logInv,
    h.startedLogBound, ?_, h.startedChain, h.refsConsistent, h.cancelEvents,
    h.counts0, h.countsLe, ?_⟩
  · intro j hj; exact h.pendingAlloc j (hmem j hj)
  · intro j hj i hi; exact h.startedMin j hj i (hmem i hi)
  · intro x hx y hy hns; exact h.startedLogLt x hx y (hmem y hy) hns
  · intro j hj hjc hj0
    have hj' : isStarted s j = true := hj
    have hjc' : wasCancelled s j = false := hjc
    have hj0' : cbCount s j = 0 := hj0
    show j ∈ s.pending_jobs.tail
    have hjp := h.livePending j hj' hjc' hj0'
    cases hl : s.pending_jobs with
    | nil => rw [hl] at hjp; cases hjp
    | cons a t =>
        rw [hl] at hjp
        show j ∈ t
        rcases List.mem_cons.mp hjp with hja | hjt
        · exfalso
          have hhd : s.pending_jobs.head? = some a := by rw [hl]; rfl
          rcases hdone a hhd with hca | hcb
          · rw [hja] at hjc'; rw [hjc'] at hca; cases hca
          · rw [hja] at hj0'; omega
        · exact hjt

/-- RemoveFrontOfJobsQueueAndStartNext preserves the invariant under
the same front-job-done condition. -/
theorem inv_removeFront {s : State} (h : Inv s)
    (hdone : ∀ f, s.pending_jobs.head? = some f →
        wasCancelled s f = true ∨ 1 ≤ cbCount s f) :
    Inv (removeFrontOfJobsQueueAndStartNext s) :=
  inv_processPendingJobs (preInv_popFront h hdone)

/-- The invariant ignores the slots and expects_pac_bytes fields: two
states agreeing on every other field satisfy it together. -/
theorem inv_congr {s s' : State} (h : Inv s)
    (e1 : s'.jobs = s.jobs) (e2 : s'.pending_jobs = s.pending_jobs)
    (e3 : s'.workerQueue = s.workerQueue) (e4 : s'.originQueue = s.originQueue)
    (e5 : s'.events = s.events)
    (e6 : s'.postedLog = s.postedLog) (e7 : s'.executedLog = s.executedLog)
    (e8 : s'.startedLog = s.startedLog) (e9 : s'.next_job_id = s.next_job_id)
    (e10 : s'.thread_started = s.thread_started)
    (e11 : s'.thread_start_count = s.thread_start_count) : Inv s' := by
  have hist : ∀ y, isStarted s' y = isStarted s y := by
    intro y; rw [isStarted_mk, isStarted_mk, e1]
  have hwc : ∀ y, wasCancelled s' y = wasCancelled s y := by
    intro y; rw [wasCancelled_mk, wasCancelled_mk, e1]
  have hwC : ∀ y, wCount s' y = wCount s y := by
    intro y; simp only [wCount, e3]
  have hqC : ∀ y, qCount s' y = qCount s y := by
    intro y; simp only [qCount, e4]
  have hcbC : ∀ y, cbCount s' y = cbCount s y := by
    intro y; simp only [cbCount, e5]
  refine ⟨⟨?_, ?_, ?_, ?_, ?_, ?_, ?_, ?_, ?_, ?_, ?_, ?_, ?_, ?_⟩, ?_⟩
  · intro k; rw [e1, e9]; exact h.alloc k
  · rw [e2]; exact h.sorted
  · rw [e2, e9]; exact h.pendingAlloc
  · intro y hy i hi
    rw [e2] at hi; rw [hist y] at hy
    exact h.startedMin y hy i hi
  · rw [e10, e11]; exact h.threadCount
  · rw [e7, e3, e6]; exact h.logInv
  · intro x hx; rw [e8] at hx; rw [e9]; exact h.startedLogBound x hx
  · intro x hx y hy hns
    rw [e8] at hx; rw [e2] at hy; rw [hist y] at hns
    exact h.startedLogLt x hx y hy hns
  · rw [e8]; exact h.startedChain
  · intro k jb hjb; rw [e1] at hjb; exact h.refsConsistent k jb hjb
  · intro y; rw [hwc y, e5]; exact h.cancelEvents y
  · intro y hy
    rw [hist y] at hy
    rw [hwC y, hqC y, hcbC y]
    exact h.counts0 y hy
  · intro y; rw [hwC y, hqC y, hcbC y]; exact h.countsLe y
  · intro y hy hyc hy0
    rw [hist y] at hy; rw [hwc y] at hyc; rw [hcbC y] at hy0; rw [e2]
    exact h.livePending y hy hyc hy0
  · intro f hf; rw [e2] at hf; rw [hist f]; exact h.frontStarted f hf

/-- A started job exists and is at the head of the queue whenever it is
still pending (single-flight). -/
theorem activeFront {s : State} (h : PreInv s) {j : Nat}
    (hj : isStarted s j = true) (hmem : j ∈ s.pending_jobs) :
    s.pending_jobs.head? = some j := by
  cases hl : s.pending_jobs with
  | nil => rw [hl] at hmem; cases hmem
  | cons a t =>
      rw [hl] at hmem
      rcases List.mem_cons.mp hmem with hja | hjt
      · rw [hja]; rfl
      · exfalso
        have ha : a ∈ s.pending_jobs := by rw [hl]; exact List.mem_cons_self a t
        have h1 : j ≤ a := h.startedMin j hj a ha
        have hsor := h.sorted; rw [hl] at hsor
        have h2 : a < j := (List.pairwise_cons.mp hsor).1 j hjt
        omega

/-! ### Field lemmas for writeOutput and cancelJobRefs -/

theorem useResults_shape (s : State) (jid : Nat) (j : Job) :
    (useResults s jid j).jobs = s.jobs ∧
    (useResults s jid j).pending_jobs = s.pending_jobs ∧
    (useResults s jid j).workerQueue = s.workerQueue ∧
    (useResults s jid j).originQueue = s.originQueue ∧
    (useResults s jid j).postedLog = s.postedLog ∧
    (useResults s jid j).executedLog = s.executedLog ∧
    (useResults s jid j).startedLog = s.startedLog ∧
    (useResults s jid j).next_job_id = s.next_job_id ∧
    (useResults s jid j).thread_started = s.thread_started ∧
    (useResults s jid j).thread_start_count = s.thread_start_count ∧
    ∃ ev, (useResults s jid j).events = s.events ++ ev ∧
      (∀ k, ev.countP (isCbFor k) = 0) ∧ (∀ k, Event.cancelled k ∉ ev) := by
  unfold useResults
  cases hr : j.results with
  | none =>
      exact ⟨rfl, rfl, rfl, rfl, rfl, rfl, rfl, rfl, rfl, rfl, [], by simp, by simp, by simp⟩
  | some slot =>
      refine ⟨rfl, rfl, rfl, rfl, rfl, rfl, rfl, rfl, rfl, rfl,
        [Event.outputWritten jid slot j.results_buf], rfl, ?_, ?_⟩
      · intro k; simp [isCbFor]
      · intro k; simp

theorem writeOutput_shape (s : State) (jid : Nat) :
    (writeOutput s jid).jobs = s.jobs ∧
    (writeOutput s jid).pending_jobs = s.pending_jobs ∧
    (writeOutput s jid).workerQueue = s.workerQueue ∧
    (writeOutput s jid).originQueue = s.originQueue ∧
    (writeOutput s jid).postedLog = s.postedLog ∧
    (writeOutput s jid).executedLog = s.executedLog ∧
    (writeOutput s jid).startedLog = s.startedLog ∧
    (writeOutput s jid).next_job_id = s.next_job_id ∧
    (writeOutput s jid).thread_started = s.thread_started ∧
    (writeOutput s jid).thread_start_count = s.thread_start_count ∧
    ∃ ev, (writeOutput s jid).events = s.events ++ ev ∧
      (∀ k, ev.countP (isCbFor k) = 0) ∧ (∀ k, Event.cancelled k ∉ ev) := by
  unfold writeOutput
  cases hj : s.jobs jid with
  | none => exact ⟨rfl, rfl, rfl, rfl, rfl, rfl, rfl, rfl, rfl, rfl, [], by simp, by simp, by simp⟩
  | some j => exact useResults_shape s jid j

theorem inv_writeOutput {s : State} (h : Inv s) (jid : Nat) :
    Inv (writeOutput s jid) := by
  obtain ⟨e1, e2, e3, e4, e6, e7, e8, e9, e10, e11, ev, e5, hcb, hcan⟩ := writeOutput_shape s jid
  have hmid : Inv { s with events := s.events ++ ev } := inv_events_neutral h ev hcb hcan
  exact inv_congr hmid e1 e2 e3 e4 e5 e6 e7 e8 e9 e10 e11

theorem cancelJobRefs_pending (s : State) (jid : Nat) :
    (cancelJobRefs s jid).pending_jobs = s.pending_jobs := by
  unfold cancelJobRefs; cases s.jobs jid <;> rfl

theorem isStarted_cancelJobRefs (s : State) (jid y : Nat) :
    isStarted (cancelJobRefs s jid) y = isStarted s y := by
  unfold cancelJobRefs
  cases hj : s.jobs jid with
  | none => rfl
  | some j =>
      rw [isStarted_mk, isStarted_mk]
      show (((setJob s jid j.cancel).jobs y).map Job.is_started).getD false = _
      unfold setJob
      by_cases hy : y = jid
      · subst hy; simp [hj, Job.cancel]
      · simp [hy]

theorem wasCancelled_cancelJobRefs (s : State) (jid : Nat) (hj : (s.jobs jid).isSome) :
    wasCancelled (cancelJobRefs s jid) jid = true := by
  obtain ⟨j, hjj⟩ := Option.isSome_iff_exists.mp hj
  rw [cancelJobRefs_eq s jid j hjj, wasCancelled_mk]
  simp [Job.cancel, Job.was_cancelled]

theorem wasCancelled_cancelJobRefs_other (s : State) (jid y : Nat) (hy : y ≠ jid) :
    wasCancelled (cancelJobRefs s jid) y = wasCancelled s y := by
  unfold cancelJobRefs
  cases hj : s.jobs jid with
  | none => rfl
  | some j =>
      rw [wasCancelled_mk, wasCancelled_mk]
      show (((setJob s jid j.cancel).jobs y).map Job.was_cancelled).getD false = _
      unfold setJob
      simp [hy]

theorem cbCount_cancelJobRefs (s : State) (jid y : Nat) :
    cbCount (cancelJobRefs s jid) y = cbCount s y := by
  unfold cancelJobRefs
  cases hj : s.jobs jid with
  | none => rfl
  | some j => simp [cbCount, setJob, List.countP_append, isCbFor]

/-- Job::Cancel preserves the invariant. -/
theorem inv_cancelJobRefs {s : State} (h : Inv s) (jid : Nat) :
    Inv (cancelJobRefs s jid) := by
  cases hj : s.jobs jid with
  | none =>
      have hred : cancelJobRefs s jid = s := by unfold cancelJobRefs; rw [hj]
      rw [hred]; exact h
  | some j =>
      rw [cancelJobRefs_eq s jid j hj]
      have hjalloc : jid < s.next_job_id := (h.alloc jid).mp (by rw [hj]; rfl)
      have hist : ∀ y,
          isStarted { s with
              jobs := fun k => if k = jid then some j.cancel else s.jobs k,
              events := s.events ++ [Event.cancelled jid] } y = isStarted s y := by
        intro y
        rw [isStarted_mk, isStarted_mk]
        by_cases hy : y = jid
        · subst hy; simp [hj, Job.cancel]
        · simp [hy]
      have hwc : ∀ y,
          wasCancelled { s with
              jobs := fun k => if k = jid then some j.cancel else s.jobs k,
              events := s.events ++ [Event.cancelled jid] } y =
            if y = jid then true else wasCancelled s y := by
        intro y
        rw [wasCancelled_mk, wasCancelled_mk]
        by_cases hy : y = jid
        · subst hy; simp [Job.cancel, Job.was_cancelled]
        · simp [hy]
      have hcbC : ∀ y,
          cbCount { s with
              jobs := fun k => if k = jid then some j.cancel else s.jobs k,
              events := s.events ++ [Event.cancelled jid] } y = cbCount s y := by
        intro y; simp [cbCount, List.countP_append, isCbFor]
      refine ⟨⟨?_, h.sorted, h.pendingAlloc, ?_, h.threadCount, h.logInv,
        h.startedLogBound, ?_, h.startedChain, ?_, ?_, ?_, ?_, ?_⟩, ?_⟩
      · intro k
        by_cases hk : k = jid
        · subst hk; simpa using hjalloc
        · simpa [hk] using h.alloc k
      · intro y hy i hi
        rw [hist y] at hy
        exact h.startedMin y hy i hi
      · intro x hx y hy hns
        rw [hist y] at hns
        exact h.startedLogLt x hx y hy hns
      · intro k jb hjb
        simp only at hjb
        by_cases hk : k = jid
        · rw [if_pos hk] at hjb
          injection hjb with hjb
          rw [← hjb]
          simp [Job.cancel]
        · rw [if_neg hk] at hjb
          exact h.refsConsistent k jb hjb
      · intro y
        rw [hwc y]
        by_cases hy : y = jid
        · subst hy; simp
        · rw [if_neg hy, h.cancelEvents y]
          simp [hy]
      · intro y hy
        rw [hist y] at hy
        obtain ⟨w0, q0, c0⟩ := h.counts0 y hy
        exact ⟨w0, q0, by rw [hcbC y]; exact c0⟩
      · intro y
        rw [hcbC y]
        exact h.countsLe y
      · intro y hy hyc hy0
        rw [hist y] at hy
        rw [hwc y] at hyc
        rw [hcbC y] at hy0
        by_cases hyj : y = jid
        · rw [if_pos hyj] at hyc; cases hyc
        · rw [if_neg hyj] at hyc
          exact h.livePending y hy hyc hy0
      · intro f hf
        rw [hist f]
        exact h.frontStarted f hf

theorem countP_single_cb (jid y : Nat) (rv : Int) :
    [Event.callbackRun jid rv].countP (isCbFor y) = if y = jid then 1 else 0 := by
  by_cases hy : y = jid
  · subst hy; simp [isCbFor]
  · have hne : (jid == y) = false := by simp; omega
    simp [isCbFor, hne, hy]

/-- Recording the completion-callback invocation preserves the
invariant, provided the job was started and its other counters are 0. -/
theorem inv_addCallbackEvent {s : State} (h : Inv s) {jid : Nat} (rv : Int)
    (hw : wCount s jid = 0) (hq : qCount s jid = 0) (hcb0 : cbCount s jid = 0)
    (hst : isStarted s jid = true) :
    Inv { s with events := s.events ++ [Event.callbackRun jid rv] } := by
  have hcbC : ∀ y, cbCount { s with events := s.events ++ [Event.callbackRun jid rv] } y =
      cbCount s y + (if y = jid then 1 else 0) := by
    intro y
    show (s.events ++ [Event.callbackRun jid rv]).countP (isCbFor y) = _
    rw [List.countP_append, countP_single_cb]
    rfl
  refine ⟨⟨h.alloc, h.sorted, h.pendingAlloc, h.startedMin, h.threadCount, h.logInv,
    h.startedLogBound, h.startedLogLt, h.startedChain, h.refsConsistent,
    ?_, ?_, ?_, ?_⟩, h.frontStarted⟩
  · intro y
    show wasCancelled s y = true ↔ _
    rw [h.cancelEvents y]
    simp
  · intro y hy
    have hy' : isStarted s y = false := hy
    have hyj : y ≠ jid := by
      intro hcontra
      rw [hcontra, hst] at hy'
      cases hy'
    obtain ⟨w0, q0, c0⟩ := h.counts0 y hy'
    refine ⟨w0, q0, ?_⟩
    rw [hcbC y, if_neg hyj, c0]
  · intro y
    show wCount s y + qCount s y +
      cbCount { s with events := s.events ++ [Event.callbackRun jid rv] } y ≤ 1
    rw [hcbC y]
    by_cases hy : y = jid
    · subst hy
      rw [hw, hq, hcb0, if_pos rfl]
    · rw [if_neg hy]
      have := h.countsLe y; omega
  · intro y hy hyc hy0
    have hy' : isStarted s y = true := hy
    have hyc' : wasCancelled s y = false := hyc
    rw [hcbC y] at hy0
    show y ∈ s.pending_jobs
    by_cases hyj : y = jid
    · rw [if_pos hyj] at hy0; omega
    · rw [if_neg hyj] at hy0
      exact h.livePending y hy' hyc' (by omega)

theorem qcDeliver_shape (s : State) (jid : Nat) (rv : Int) :
    (qcDeliver s jid rv).jobs = s.jobs ∧
    (qcDeliver s jid rv).pending_jobs = s.pending_jobs ∧
    (qcDeliver s jid rv).workerQueue = s.workerQueue ∧
    (qcDeliver s jid rv).originQueue = s.originQueue ∧
    (qcDeliver s jid rv).postedLog = s.postedLog ∧
    (qcDeliver s jid rv).executedLog = s.executedLog ∧
    (qcDeliver s jid rv).startedLog = s.startedLog ∧
    (qcDeliver s jid rv).next_job_id = s.next_job_id ∧
    (qcDeliver s jid rv).thread_started = s.thread_started ∧
    (qcDeliver s jid rv).thread_start_count = s.thread_start_count := by
  obtain ⟨e1, e2, e3, e4, e6, e7, e8, e9, e10, e11, _⟩ := writeOutput_shape s jid
  unfold qcDeliver
  by_cases hr : OK ≤ rv
  · simp only [if_pos hr]
    exact ⟨e1, e2, e3, e4, e6, e7, e8, e9, e10, e11⟩
  · simp [if_neg hr]

theorem cbCount_qcDeliver (s : State) (jid : Nat) (rv : Int) (y : Nat) :
    cbCount (qcDeliver s jid rv) y = cbCount s y + (if y = jid then 1 else 0) := by
  have hone : ∀ l : List Event,
      (l ++ [Event.callbackRun jid rv]).countP (isCbFor y) =
        l.countP (isCbFor y) + (if y = jid then 1 else 0) := by
    intro l
    rw [List.countP_append, countP_single_cb]
  unfold qcDeliver
  by_cases hr : OK ≤ rv
  · simp only [if_pos hr]
    obtain ⟨_, _, _, _, _, _, _, _, _, _, ev, he, hcb, _⟩ := writeOutput_shape s jid
    show ((writeOutput s jid).events ++ [Event.callbackRun jid rv]).countP (isCbFor y) = _
    rw [hone, he, List.countP_append, hcb]
    show s.events.countP (isCbFor y) + 0 + _ = cbCount s y + _
    rw [Nat.add_zero]
    rfl
  · simp only [if_neg hr]
    exact hone s.events

theorem wasCancelled_qcDeliver (s : State) (jid : Nat) (rv : Int) (y : Nat) :
    wasCancelled (qcDeliver s jid rv) y = wasCancelled s y := by
  obtain ⟨e1, _⟩ := qcDeliver_shape s jid rv
  rw [wasCancelled_mk, wasCancelled_mk, e1]

theorem inv_qcDeliver {s : State} (h : Inv s) {jid : Nat} (rv : Int)
    (hw : wCount s jid = 0) (hq : qCount s jid = 0) (hcb0 : cbCount s jid = 0)
    (hst : isStarted s jid = true) :
    Inv (qcDeliver s jid rv) := by
  unfold qcDeliver
  by_cases hr : OK ≤ rv
  · simp only [if_pos hr]
    obtain ⟨e1, e2, e3, e4, e6, e7, e8, e9, e10, e11, ev, he, hcb, hcan⟩ :=
      writeOutput_shape s jid
    have h1 := inv_writeOutput h jid
    refine inv_addCallbackEvent h1 rv ?_ ?_ ?_ ?_
    · show (writeOutput s jid).workerQueue.countP _ = 0
      rw [e3]; exact hw
    · show (writeOutput s jid).originQueue.countP _ = 0
      rw [e4]; exact hq
    · show (writeOutput s jid).events.countP _ = 0
      rw [he, List.countP_append, hcb, Nat.add_zero]
      exact hcb0
    · rw [isStarted_mk, e1, ← isStarted_mk]; exact hst
  · simp only [if_neg hr]
    exact inv_addCallbackEvent h rv hw hq hcb0 hst

theorem qcAfterCallback_pending (s : State) (jid : Nat) (cbC : Bool) :
    (qcAfterCallback s jid cbC).pending_jobs = s.pending_jobs := by
  unfold qcAfterCallback
  cases cbC
  · rfl
  · simp only [if_pos]; exact cancelJobRefs_pending s jid

theorem cbCount_qcAfterCallback (s : State) (jid : Nat) (cbC : Bool) (y : Nat) :
    cbCount (qcAfterCallback s jid cbC) y = cbCount s y := by
  unfold qcAfterCallback
  cases cbC
  · rfl
  · simp only [if_pos]; exact cbCount_cancelJobRefs s jid y

theorem inv_qcAfterCallback {s : State} (h : Inv s) (jid : Nat) (cbC : Bool) :
    Inv (qcAfterCallback s jid cbC) := by
  unfold qcAfterCallback
  cases cbC
  · exact h
  · simp only [if_pos]; exact inv_cancelJobRefs h jid

/-- Job::QueryComplete preserves the invariant, given the counter state
that holds when its origin-loop task has just been popped. -/
theorem inv_queryComplete {s : State} (h : Inv s) {jid : Nat} (rv : Int) (cbC : Bool)
    (hw : wCount s jid = 0) (hq : qCount s jid = 0) (hcb0 : cbCount s jid = 0)
    (hst : isStarted s jid = true) :
    Inv (queryComplete s jid rv cbC) := by
  unfold queryComplete
  by_cases hc : wasCancelled s jid = true
  · rw [if_pos hc]; exact h
  · replace hc : wasCancelled s jid = false := by simpa using hc
    rw [if_neg (by simp [hc])]
    show Inv
      (if wasCancelled (qcAfterCallback (qcDeliver s jid rv) jid cbC) jid = true
       then qcAfterCallback (qcDeliver s jid rv) jid cbC
       else removeFrontOfJobsQueueAndStartNext
         { qcAfterCallback (qcDeliver s jid rv) jid cbC with
             events := (qcAfterCallback (qcDeliver s jid rv) jid cbC).events ++
               [Event.jobTouchedDispatcher jid] })
    have h2 : Inv (qcDeliver s jid rv) := inv_qcDeliver h rv hw hq hcb0 hst
    have h3 : Inv (qcAfterCallback (qcDeliver s jid rv) jid cbC) :=
      inv_qcAfterCallback h2 jid cbC
    by_cases hc3 : wasCancelled (qcAfterCallback (qcDeliver s jid rv) jid cbC) jid = true
    · rw [if_pos hc3]; exact h3
    · rw [if_neg hc3]
      have h4 : Inv { qcAfterCallback (qcDeliver s jid rv) jid cbC with
          events := (qcAfterCallback (qcDeliver s jid rv) jid cbC).events ++
            [Event.jobTouchedDispatcher jid] } :=
        inv_events_neutral h3 [Event.jobTouchedDispatcher jid]
          (by intro k; simp [isCbFor]) (by intro k; simp)
      apply inv_removeFront h4
      intro f hf
      right
      -- the pending queue is unchanged all along, and its head is jid
      have hmem : jid ∈ s.pending_jobs := h.livePending jid hst hc hcb0
      have hfront : s.pending_jobs.head? = some jid :=
        activeFront h.toPreInv hst hmem
      have hpq : (qcAfterCallback (qcDeliver s jid rv) jid cbC).pending_jobs =
          s.pending_jobs := by
        rw [qcAfterCallback_pending, (qcDeliver_shape s jid rv).2.1]
      have hfj : f = jid := by
        have : s.pending_jobs.head? = some f := by
          rw [← hpq]; exact hf
        rw [hfront] at this; injection this with this; omega
      rw [hfj]
      have hcb1 : cbCount { qcAfterCallback (qcDeliver s jid rv) jid cbC with
          events := (qcAfterCallback (qcDeliver s jid rv) jid cbC).events ++
            [Event.jobTouchedDispatcher jid] } jid =
          cbCount (qcAfterCallback (qcDeliver s jid rv) jid cbC) jid := by
        simp [cbCount, List.countP_append, isCbFor]
      rw [hcb1, cbCount_qcAfterCallback, cbCount_qcDeliver, hcb0]
      simp

/-- Popping the front task of the origin loop preserves the invariant. -/
theorem inv_popOrigin {s : State} (h : Inv s) {t : OTask} {rest : List OTask}
    (ho : s.originQueue = t :: rest) :
    Inv { s with originQueue := rest } := by
  have hqle : ∀ y, qCount { s with originQueue := rest } y ≤ qCount s y := by
    intro y
    show rest.countP _ ≤ s.originQueue.countP _
    rw [ho, List.countP_cons]
    omega
  refine ⟨⟨h.alloc, h.sorted, h.pendingAlloc, h.startedMin, h.threadCount, h.logInv,
    h.startedLogBound, h.startedLogLt, h.startedChain, h.refsConsistent,
    h.cancelEvents, ?_, ?_, h.livePending⟩, h.frontStarted⟩
  · intro y hy
    obtain ⟨w0, q0, c0⟩ := h.counts0 y hy
    refine ⟨w0, ?_, c0⟩
    have := hqle y; omega
  · intro y
    have := hqle y
    have := h.countsLe y
    show wCount s y + _ + cbCount s y ≤ 1
    omega

/-- Running the front task of the origin loop preserves the invariant. -/
theorem inv_originRunFront {s s' : State} (h : Inv s) {cbC : Bool}
    (hs : originRunFront s cbC = some s') : Inv s' := by
  unfold originRunFront at hs
  cases ho : s.originQueue with
  | nil => rw [ho] at hs; cases hs
  | cons t rest =>
      rw [ho] at hs
      obtain ⟨jid, rv⟩ := t
      injection hs with hs
      have hq1 : 1 ≤ qCount s jid := by
        simp [qCount, ho, List.countP_cons, isQCFor]
      have hst : isStarted s jid = true := by
        by_contra hns
        have := (h.counts0 jid (by simpa using hns)).2.1
        omega
      have hsum := h.countsLe jid
      have hw : wCount s jid = 0 := by omega
      have hcb : cbCount s jid = 0 := by omega
      have h0 : Inv { s with originQueue := rest } := inv_popOrigin h ho
      have hq0 : qCount { s with originQueue := rest } jid = 0 := by
        have hqs : qCount s jid = 1 := by omega
        have : qCount s jid = rest.countP (isQCFor jid) + 1 := by
          simp [qCount, ho, List.countP_cons, isQCFor]
        show rest.countP (isQCFor jid) = 0
        omega
      rw [← hs]
      exact inv_queryComplete h0 rv cbC hw hq0 hcb hst

theorem started_lt {s : State} (h : PreInv s) {y : Nat} (hy : isStarted s y = true) :
    y < s.next_job_id := by
  cases hj : s.jobs y with
  | none => rw [isStarted_mk, hj] at hy; cases hy
  | some j => exact (h.alloc y).mp (by rw [hj]; rfl)

theorem getProxyForURL_eq (s : State) (url slot : Nat) :
    getProxyForURL s url slot =
      (ERR_IO_PENDING, s.next_job_id, processPendingJobs (submitState s url slot)) := rfl

theorem preInv_submitState {s : State} (h : Inv s) (url slot : Nat) :
    PreInv (submitState s url slot) := by
  have hnone : s.jobs s.next_job_id = none := by
    cases hj : s.jobs s.next_job_id with
    | none => rfl
    | some j =>
        exfalso
        have := (h.alloc s.next_job_id).mp (by rw [hj]; rfl)
        omega
  have hist : ∀ y, isStarted (submitState s url slot) y =
      if y = s.next_job_id then false else isStarted s y := by
    intro y
    rw [isStarted_mk, isStarted_mk]
    by_cases hy : y = s.next_job_id
    · subst hy; simp [submitState, submitJob]
    · simp [submitState, hy]
  have hwc : ∀ y, wasCancelled (submitState s url slot) y =
      if y = s.next_job_id then false else wasCancelled s y := by
    intro y
    rw [wasCancelled_mk, wasCancelled_mk]
    by_cases hy : y = s.next_job_id
    · subst hy; simp [submitState, submitJob, Job.was_cancelled]
    · simp [submitState, hy]
  have hcbC : ∀ y, cbCount (submitState s url slot) y = cbCount s y := by
    intro y
    show (s.events ++ [Event.submitted s.next_job_id]).countP _ = _
    rw [List.countP_append]
    simp [isCbFor, cbCount]
  have hwCq : ∀ y, wCount (submitState s url slot) y = wCount s y := fun _ => rfl
  have hqCq : ∀ y, qCount (submitState s url slot) y = qCount s y := fun _ => rfl
  refine ⟨?_, ?_, ?_, ?_, h.threadCount, h.logInv, ?_, ?_, h.startedChain,
    ?_, ?_, ?_, ?_, ?_⟩
  · intro k
    show (if k = s.next_job_id then _ else s.jobs k).isSome ↔ k < s.next_job_id + 1
    by_cases hk : k = s.next_job_id
    · subst hk; simp
    · rw [if_neg hk]
      rw [h.alloc k]
      omega
  · show (s.pending_jobs ++ [s.next_job_id]).Pairwise (· < ·)
    rw [List.pairwise_append]
    refine ⟨h.sorted, List.pairwise_singleton _ _, ?_⟩
    intro x hx y hy
    simp only [List.mem_singleton] at hy
    rw [hy]
    exact h.pendingAlloc x hx
  · intro j hj
    show j < s.next_job_id + 1
    rcases List.mem_append.mp hj with hj | hj
    · have := h.pendingAlloc j hj; omega
    · simp only [List.mem_singleton] at hj; omega
  · intro y hy i hi
    rw [hist y] at hy
    by_cases hyn : y = s.next_job_id
    · rw [if_pos hyn] at hy; cases hy
    · rw [if_neg hyn] at hy
      rcases List.mem_append.mp hi with hi | hi
      · exact h.startedMin y hy i hi
      · simp only [List.mem_singleton] at hi
        rw [hi]
        exact Nat.le_of_lt (started_lt h.toPreInv hy)
  · intro x hx
    show x < s.next_job_id + 1
    have := h.startedLogBound x hx; omega
  · intro x hx y hy hns
    rw [hist y] at hns
    rcases List.mem_append.mp hy with hy' | hy'
    · have hyn : y ≠ s.next_job_id := by
        have := h.pendingAlloc y hy'; omega
      rw [if_neg hyn] at hns
      exact h.startedLogLt x hx y hy' hns
    · simp only [List.mem_singleton] at hy'
      rw [hy']
      exact h.startedLogBound x hx
  · intro k jb hjb
    have hjb' : (if k = s.next_job_id then some (submitJob url slot) else s.jobs k) =
        some jb := hjb
    by_cases hk : k = s.next_job_id
    · rw [if_pos hk] at hjb'
      injection hjb' with hjb'
      rw [← hjb']
      exact ⟨rfl, rfl⟩
    · rw [if_neg hk] at hjb'
      exact h.refsConsistent k jb hjb'
  · intro y
    rw [hwc y]
    by_cases hy : y = s.next_job_id
    · subst hy
      rw [if_pos rfl]
      have hy0 : wasCancelled s s.next_job_id = false := by
        rw [wasCancelled_mk, hnone]; rfl
      have hnot := (h.cancelEvents s.next_job_id)
      rw [hy0] at hnot
      constructor
      · intro hcontra; cases hcontra
      · intro hmem
        rcases List.mem_append.mp hmem with hmem | hmem
        · exact absurd (hnot.mpr hmem) (by simp)
        · simp at hmem
    · rw [if_neg hy, h.cancelEvents y]
      show _ ↔ _ ∈ s.events ++ [Event.submitted s.next_job_id]
      simp
  · intro y hy
    rw [hist y] at hy
    rw [hwCq y, hqCq y, hcbC y]
    by_cases hyn : y = s.next_job_id
    · exact h.counts0 y (by rw [isStarted_mk, hyn, hnone]; rfl)
    · rw [if_neg hyn] at hy
      exact h.counts0 y hy
  · intro y
    rw [hwCq y, hqCq y, hcbC y]
    exact h.countsLe y
  · intro y hy hyc hy0
    rw [hist y] at hy
    rw [hwc y] at hyc
    rw [hcbC y] at hy0
    by_cases hyn : y = s.next_job_id
    · rw [if_pos hyn] at hy; cases hy
    · rw [if_neg hyn] at hy
      rw [if_neg hyn] at hyc
      show y ∈ s.pending_jobs ++ [s.next_job_id]
      exact List.mem_append.mpr (Or.inl (h.livePending y hy hyc hy0))

theorem inv_getProxyForURL {s : State} (h : Inv s) (url slot : Nat) :
    Inv (getProxyForURL s url slot).2.2 := by
  rw [getProxyForURL_eq]
  exact inv_processPendingJobs (preInv_submitState h url slot)

/-! ### CancelRequest preservation -/

theorem cancelRequest_eq_active (s : State) (jid : Nat)
    (ha : (isStarted s jid && (s.pending_jobs.head? == some jid)) = true) :
    cancelRequest s jid = removeFrontOfJobsQueueAndStartNext (cancelJobRefs s jid) := by
  simp only [cancelRequest, ha, if_true]

theorem cancelRequest_eq_inactive (s : State) (jid : Nat)
    (ha : (isStarted s jid && (s.pending_jobs.head? == some jid)) = false) :
    cancelRequest s jid =
      { cancelJobRefs s jid with
          pending_jobs := (cancelJobRefs s jid).pending_jobs.erase jid } := by
  simp only [cancelRequest, ha, Bool.false_eq_true, if_false]

/-- Erasing a cancelled, non-front job from the queue preserves the
invariant. -/
theorem inv_erasePending {s : State} (h : Inv s) {jid : Nat}
    (hcanc : wasCancelled s jid = true)
    (hhead : s.pending_jobs.head? ≠ some jid) :
    Inv { s with pending_jobs := s.pending_jobs.erase jid } := by
  have hsub : (s.pending_jobs.erase jid).Sublist s.pending_jobs :=
    List.erase_sublist jid s.pending_jobs
  have hmem : ∀ y, y ∈ s.pending_jobs.erase jid → y ∈ s.pending_jobs :=
    fun y hy => hsub.mem hy
  refine ⟨⟨h.alloc, h.sorted.sublist hsub, ?_, ?_, h.threadCount, h.logInv,
    h.startedLogBound, ?_, h.startedChain, h.refsConsistent, h.cancelEvents,
    h.counts0, h.countsLe, ?_⟩, ?_⟩
  · intro y hy; exact h.pendingAlloc y (hmem y hy)
  · intro y hy i hi; exact h.startedMin y hy i (hmem i hi)
  · intro x hx y hy hns; exact h.startedLogLt x hx y (hmem y hy) hns
  · intro y hy hyc hy0
    have hy' : isStarted s y = true := hy
    have hyc' : wasCancelled s y = false := hyc
    have hy0' : cbCount s y = 0 := hy0
    have hyp := h.livePending y hy' hyc' hy0'
    have hyj : y ≠ jid := by
      intro hcontra
      rw [hcontra, hcanc] at hyc'
      cases hyc'
    show y ∈ s.pending_jobs.erase jid
    exact (List.mem_erase_of_ne hyj).mpr hyp
  · intro f hf
    show isStarted s f = true
    cases hl : s.pending_jobs with
    | nil =>
        exfalso
        have : s.pending_jobs.erase jid = [] := by rw [hl]; rfl
        rw [show ({ s with pending_jobs := s.pending_jobs.erase jid } : State).pending_jobs
              = s.pending_jobs.erase jid from rfl, this] at hf
        cases hf
    | cons a t =>
        have haj : (a == jid) = false := by
          have : a ≠ jid := by
            intro hcontra
            apply hhead
            rw [hl, hcontra]
            rfl
          simp [this]
        have herase : s.pending_jobs.erase jid = a :: t.erase jid := by
          rw [hl, List.erase_cons, haj]
          simp
        have hf' : (s.pending_jobs.erase jid).head? = some f := hf
        rw [herase] at hf'
        injection hf' with hf'
        have hfa : s.pending_jobs.head? = some a := by rw [hl]; rfl
        rw [← hf']
        exact h.frontStarted a hfa

theorem inv_cancelRequest {s : State} (h : Inv s) {jid : Nat}
    (hmem : jid ∈ s.pending_jobs) :
    Inv (cancelRequest s jid) := by
  have hsomej : (s.jobs jid).isSome := (h.alloc jid).mpr (h.pendingAlloc jid hmem)
  by_cases ha : (isStarted s jid && (s.pending_jobs.head? == some jid)) = true
  · rw [cancelRequest_eq_active s jid ha]
    apply inv_removeFront (inv_cancelJobRefs h jid)
    intro f hf
    left
    have hpend : (cancelJobRefs s jid).pending_jobs = s.pending_jobs :=
      cancelJobRefs_pending s jid
    have hf' : s.pending_jobs.head? = some f := by rw [← hpend]; exact hf
    have hhead : s.pending_jobs.head? = some jid := by
      have hb := (Bool.and_eq_true _ _).mp ha
      have := hb.2
      simpa using this
    have hfj : f = jid := by
      rw [hhead] at hf'; injection hf' with hf'; omega
    rw [hfj]
    exact wasCancelled_cancelJobRefs s jid hsomej
  · replace ha : (isStarted s jid && (s.pending_jobs.head? == some jid)) = false := by
      simpa using ha
    rw [cancelRequest_eq_inactive s jid ha]
    have hhead : s.pending_jobs.head? ≠ some jid := by
      intro hcontra
      have hstj : isStarted s jid = true := h.frontStarted jid hcontra
      rw [hstj] at ha
      simp at ha
      exact ha hcontra
    apply inv_erasePending (inv_cancelJobRefs h jid)
    · exact wasCancelled_cancelJobRefs s jid hsomej
    · rw [cancelJobRefs_pending]; exact hhead

/-! ### SetPacScript preservation -/

theorem inv_postSetPac {s : State} (h : Inv s) (u b : Nat) :
    Inv (postToWorker s (WTask.setPacScript u b)) := by
  have hwC : ∀ y, wCount (postToWorker s (WTask.setPacScript u b)) y = wCount s y := by
    intro y
    show (s.workerQueue ++ [WTask.setPacScript u b]).countP _ = _
    rw [List.countP_append]
    simp [isDoQueryFor, wCount]
  refine ⟨⟨h.alloc, h.sorted, h.pendingAlloc, h.startedMin, h.threadCount, ?_,
    h.startedLogBound, h.startedLogLt, h.startedChain, h.refsConsistent,
    h.cancelEvents, ?_, ?_, h.livePending⟩, h.frontStarted⟩
  · show s.executedLog ++ (s.workerQueue ++ [WTask.setPacScript u b]) =
      s.postedLog ++ [WTask.setPacScript u b]
    rw [← List.append_assoc, h.logInv]
  · intro y hy
    obtain ⟨w0, q0, c0⟩ := h.counts0 y hy
    exact ⟨by rw [hwC y]; exact w0, q0, c0⟩
  · intro y
    have := h.countsLe y
    show wCount (postToWorker s (WTask.setPacScript u b)) y + qCount s y + cbCount s y ≤ 1
    rw [hwC y]
    exact this

theorem inv_setPacScriptHelper {s : State} (h : Inv s) (pac_url bytes : Nat) :
    Inv (setPacScriptHelper s pac_url bytes) :=
  inv_postSetPac (inv_ensureThreadStarted h) pac_url bytes

/-! ### Worker-step preservation -/

/-- Running the DoQuery at the front of the worker loop preserves the
invariant. -/
theorem inv_worker_doQuery_generic {s s' : State} (h : Inv s) {jid : Nat} {j : Job}
    {rv : Int} {info : Nat} {rest : List WTask}
    (hq : s.workerQueue = WTask.doQuery jid :: rest)
    (hj : s.jobs jid = some j)
    (e1 : s'.jobs = fun k => if k = jid then some { j with results_buf := info } else s.jobs k)
    (e2 : s'.pending_jobs = s.pending_jobs)
    (e3 : s'.workerQueue = rest)
    (e4 : s'.originQueue = s.originQueue ++ [OTask.queryComplete jid rv])
    (e5 : s'.events = s.events ++ [Event.engineQuery jid j.url])
    (e6 : s'.postedLog = s.postedLog)
    (e7 : s'.executedLog = s.executedLog ++ [WTask.doQuery jid])
    (e8 : s'.startedLog = s.startedLog)
    (e9 : s'.next_job_id = s.next_job_id)
    (e10 : s'.thread_started = s.thread_started)
    (e11 : s'.thread_start_count = s.thread_start_count) :
    Inv s' := by
  have hist : ∀ y, isStarted s' y = isStarted s y := by
    intro y
    rw [isStarted_mk, isStarted_mk, e1]
    by_cases hy : y = jid
    · subst hy; simp [hj]
    · simp [hy]
  have hwcM : ∀ y, wasCancelled s' y = wasCancelled s y := by
    intro y
    rw [wasCancelled_mk, wasCancelled_mk, e1]
    by_cases hy : y = jid
    · subst hy; simp [hj, Job.was_cancelled]
    · simp [hy]
  have hwSplit : ∀ y, wCount s y = wCount s' y + (if y = jid then 1 else 0) := by
    intro y
    show s.workerQueue.countP _ = s'.workerQueue.countP _ + _
    rw [hq, e3, List.countP_cons]
    by_cases hy : y = jid
    · subst hy; simp [isDoQueryFor]
    · have hne : (jid == y) = false := by simp; omega
      simp [isDoQueryFor, hne, hy]
  have hqC : ∀ y, qCount s' y = qCount s y + (if y = jid then 1 else 0) := by
    intro y
    show s'.originQueue.countP _ = s.originQueue.countP _ + _
    rw [e4, List.countP_append, List.countP_cons, List.countP_nil]
    by_cases hy : y = jid
    · subst hy; simp [isQCFor]
    · have hne : (jid == y) = false := by simp; omega
      simp [isQCFor, hne, hy]
  have hcbC : ∀ y, cbCount s' y = cbCount s y := by
    intro y
    show s'.events.countP _ = s.events.countP _
    rw [e5, List.countP_append]
    simp [isCbFor]
  have hw1 : 1 ≤ wCount s jid := by
    show 1 ≤ s.workerQueue.countP _
    rw [hq, List.countP_cons]
    simp [isDoQueryFor]
  have hstj : isStarted s jid = true := by
    by_contra hns
    have := (h.counts0 jid (by simpa using hns)).1
    omega
  have hsum := h.countsLe jid
  refine ⟨⟨?_, ?_, ?_, ?_, ?_, ?_, ?_, ?_, ?_, ?_, ?_, ?_, ?_, ?_⟩, ?_⟩
  · intro k
    rw [e1, e9]
    by_cases hk : k = jid
    · subst hk
      simpa using (h.alloc k).mp (by rw [hj]; rfl)
    · simpa [hk] using h.alloc k
  · rw [e2]; exact h.sorted
  · rw [e2, e9]; exact h.pendingAlloc
  · intro y hy i hi
    rw [hist y] at hy; rw [e2] at hi
    exact h.startedMin y hy i hi
  · rw [e10, e11]; exact h.threadCount
  · rw [e7, e3, e6, List.append_assoc]
    show s.executedLog ++ (WTask.doQuery jid :: rest) = s.postedLog
    rw [← hq]
    exact h.logInv
  · intro x hx; rw [e8] at hx; rw [e9]; exact h.startedLogBound x hx
  · intro x hx y hy hns
    rw [e8] at hx; rw [e2] at hy; rw [hist y] at hns
    exact h.startedLogLt x hx y hy hns
  · rw [e8]; exact h.startedChain
  · intro k jb hjb
    simp only [e1] at hjb
    by_cases hk : k = jid
    · rw [if_pos hk] at hjb
      injection hjb with hjb
      rw [← hjb]
      exact h.refsConsistent jid j hj
    · rw [if_neg hk] at hjb
      exact h.refsConsistent k jb hjb
  · intro y
    rw [hwcM y, e5, h.cancelEvents y]
    simp
  · intro y hy
    rw [hist y] at hy
    have hyj : y ≠ jid := by
      intro hcontra; rw [hcontra, hstj] at hy; cases hy
    obtain ⟨w0, q0, c0⟩ := h.counts0 y hy
    have hws := hwSplit y
    rw [if_neg hyj] at hws
    refine ⟨by omega, ?_, by rw [hcbC y]; exact c0⟩
    rw [hqC y, if_neg hyj, q0]
  · intro y
    have hws := hwSplit y
    have hqc := hqC y
    have hcb := hcbC y
    have hle := h.countsLe y
    by_cases hy : y = jid
    · subst hy; omega
    · rw [if_neg hy] at hws hqc; omega
  · intro y hy hyc hy0
    rw [hist y] at hy; rw [hwcM y] at hyc; rw [hcbC y] at hy0; rw [e2]
    exact h.livePending y hy hyc hy0
  · intro f hf
    rw [e2] at hf; rw [hist f]
    exact h.frontStarted f hf

/-- Running the SetPacScriptTask at the front of the worker loop
preserves the invariant. -/
theorem inv_worker_setPac_generic {s s' : State} (h : Inv s) {u b : Nat}
    {rest : List WTask} (ev : Event)
    (hq : s.workerQueue = WTask.setPacScript u b :: rest)
    (hev : (∃ uu, ev = Event.engineSetPacByUrl uu) ∨ ∃ bb, ev = Event.engineSetPacByData bb)
    (e1 : s'.jobs = s.jobs)
    (e2 : s'.pending_jobs = s.pending_jobs)
    (e3 : s'.workerQueue = rest)
    (e4 : s'.originQueue = s.originQueue)
    (e5 : s'.events = s.events ++ [ev])
    (e6 : s'.postedLog = s.postedLog)
    (e7 : s'.executedLog = s.executedLog ++ [WTask.setPacScript u b])
    (e8 : s'.startedLog = s.startedLog)
    (e9 : s'.next_job_id = s.next_job_id)
    (e10 : s'.thread_started = s.thread_started)
    (e11 : s'.thread_start_count = s.thread_start_count) : Inv s' := by
  have hist : ∀ y, isStarted s' y = isStarted s y := by
    intro y; rw [isStarted_mk, isStarted_mk, e1]
  have hwcM : ∀ y, wasCancelled s' y = wasCancelled s y := by
    intro y; rw [wasCancelled_mk, wasCancelled_mk, e1]
  have hwC : ∀ y, wCount s' y = wCount s y := by
    intro y
    show s'.workerQueue.countP _ = s.workerQueue.countP _
    rw [e3, hq, List.countP_cons]
    simp [isDoQueryFor]
  have hcbC : ∀ y, cbCount s' y = cbCount s y := by
    intro y
    show s'.events.countP _ = s.events.countP _
    rw [e5, List.countP_append]
    rcases hev with ⟨uu, hevv⟩ | ⟨bb, hevv⟩ <;> subst hevv <;> simp [isCbFor]
  have hcan : ∀ k, Event.cancelled k ∉ [ev] := by
    intro k
    rcases hev with ⟨uu, hevv⟩ | ⟨bb, hevv⟩ <;> subst hevv <;> simp
  refine ⟨⟨?_, ?_, ?_, ?_, ?_, ?_, ?_, ?_, ?_, ?_, ?_, ?_, ?_, ?_⟩, ?_⟩
  · intro k; rw [e1, e9]; exact h.alloc k
  · rw [e2]; exact h.sorted
  · rw [e2, e9]; exact h.pendingAlloc
  · intro y hy i hi
    rw [hist y] at hy; rw [e2] at hi
    exact h.startedMin y hy i hi
  · rw [e10, e11]; exact h.threadCount
  · rw [e7, e3, e6, List.append_assoc]
    show s.executedLog ++ (WTask.setPacScript u b :: rest) = s.postedLog
    rw [← hq]
    exact h.logInv
  · intro x hx; rw [e8] at hx; rw [e9]; exact h.startedLogBound x hx
  · intro x hx y hy hns
    rw [e8] at hx; rw [e2] at hy; rw [hist y] at hns
    exact h.startedLogLt x hx y hy hns
  · rw [e8]; exact h.startedChain
  · intro k jb hjb; rw [e1] at hjb; exact h.refsConsistent k jb hjb
  · intro y
    rw [hwcM y, e5, h.cancelEvents y]
    simp only [List.mem_append]
    constructor
    · intro hm; exact Or.inl hm
    · intro hm
      rcases hm with hm | hm
      · exact hm
      · exact absurd hm (hcan y)
  · intro y hy
    rw [hist y] at hy
    obtain ⟨w0, q0, c0⟩ := h.counts0 y hy
    rw [hwC y, hcbC y]
    exact ⟨w0, by rw [show qCount s' y = qCount s y from by simp only [qCount, e4]]; exact q0, c0⟩
  · intro y
    rw [hwC y, hcbC y]
    rw [show qCount s' y = qCount s y from by simp only [qCount, e4]]
    exact h.countsLe y
  · intro y hy hyc hy0
    rw [hist y] at hy; rw [hwcM y] at hyc; rw [hcbC y] at hy0; rw [e2]
    exact h.livePending y hy hyc hy0
  · intro f hf
    rw [e2] at hf; rw [hist f]
    exact h.frontStarted f hf

theorem inv_workerRunFront {s s' : State} (h : Inv s) {rv : Int} {info : Nat}
    (hs : workerRunFront s rv info = some s') : Inv s' := by
  unfold workerRunFront at hs
  split at hs
  · exact absurd hs (by simp)
  next t rest hq =>
    split at hs
    next jid =>
      split at hs
      · exact absurd hs (by simp)
      next hrv =>
        split at hs
        next hj => exact absurd hs (by simp)
        next j hj =>
          injection hs with hs
          subst hs
          exact inv_worker_doQuery_generic h hq hj rfl rfl rfl rfl rfl rfl rfl
            rfl rfl rfl rfl
    next u b =>
      injection hs with hs
      subst hs
      refine inv_worker_setPac_generic h
        (if s.expects_pac_bytes = true then Event.engineSetPacByData b
         else Event.engineSetPacByUrl u)
        hq ?_ rfl rfl rfl rfl rfl rfl rfl rfl rfl rfl rfl
      by_cases hb : s.expects_pac_bytes = true
      · exact Or.inr ⟨b, by rw [if_pos hb]⟩
      · exact Or.inl ⟨u, by rw [if_neg hb]⟩

/-! ### Step, run, and reachability -/

theorem inv_step {s s' : State} (h : Inv s) {a : Action} (hs : step s a = some s') :
    Inv s' := by
  cases a with
  | submit url slot =>
      have hs' : some (getProxyForURL s url slot).2.2 = some s' := hs
      injection hs' with hs'
      rw [← hs']
      exact inv_getProxyForURL h url slot
  | cancel jid =>
      have hs' : (if ((s.jobs jid).isSome && s.pending_jobs.contains jid) = true
          then some (cancelRequest s jid) else none) = some s' := hs
      by_cases hcond : ((s.jobs jid).isSome && s.pending_jobs.contains jid) = true
      · rw [if_pos hcond] at hs'
        injection hs' with hs'
        rw [← hs']
        have hmemb := (Bool.and_eq_true _ _).mp hcond |>.2
        have hmem : jid ∈ s.pending_jobs := by simpa using hmemb
        exact inv_cancelRequest h hmem
      · rw [if_neg hcond] at hs'; cases hs'
  | setPacByUrl u =>
      have hs' : some (setPacScriptByUrlInternal s u) = some s' := hs
      injection hs' with hs'
      rw [← hs']
      exact inv_setPacScriptHelper h u 0
  | setPacByData b =>
      have hs' : some (setPacScriptByDataInternal s b) = some s' := hs
      injection hs' with hs'
      rw [← hs']
      exact inv_setPacScriptHelper h 0 b
  | workerStep rv info => exact inv_workerRunFront h hs
  | originStep cbCancels => exact inv_originRunFront h hs

theorem inv_run {s s' : State} (h : Inv s) {acts : List Action}
    (hs : run s acts = some s') : Inv s' := by
  induction acts generalizing s with
  | nil =>
      have hs' : some s = some s' := hs
      injection hs' with hs'
      rw [← hs']
      exact h
  | cons a rest ih =>
      have hs' : (step s a).bind (fun s1 => run s1 rest) = some s' := hs
      cases hstep : step s a with
      | none => rw [hstep] at hs'; cases hs'
      | some s1 =>
          rw [hstep] at hs'
          exact ih (inv_step h hstep) hs'

/-- Every reachable state satisfies the system invariant. -/
theorem inv_reachable {s : State} (h : Reachable s) : Inv s := by
  obtain ⟨epb, sl, acts, hr⟩ := h
  exact inv_run (inv_init epb sl) hr

/-! ### Functional characterization lemmas -/

theorem jobStart_fields (s : State) (f : Nat) :
    (jobStart s f).pending_jobs = s.pending_jobs ∧
    (jobStart s f).slots = s.slots ∧
    (jobStart s f).originQueue = s.originQueue ∧
    (jobStart s f).thread_started = s.thread_started ∧
    (jobStart s f).thread_start_count = s.thread_start_count := by
  unfold jobStart
  cases s.jobs f with
  | none => exact ⟨rfl, rfl, rfl, rfl, rfl⟩
  | some j => exact ⟨rfl, rfl, rfl, rfl, rfl⟩

theorem wasCancelled_jobStart (s : State) (f k : Nat) :
    wasCancelled (jobStart s f) k = wasCancelled s k := by
  unfold jobStart
  cases hj : s.jobs f with
  | none => rfl
  | some j =>
      rw [wasCancelled_mk, wasCancelled_mk]
      show (((setJob s f _).jobs k).map Job.was_cancelled).getD false = _
      unfold setJob
      by_cases hk : k = f
      · subst hk; simp [hj, Job.was_cancelled]
      · simp [hk]

theorem cbCount_jobStart (s : State) (f k : Nat) :
    cbCount (jobStart s f) k = cbCount s k := by
  unfold jobStart
  cases hj : s.jobs f with
  | none => rfl
  | some j =>
      show (s.events ++ [Event.jobStarted f]).countP _ = _
      rw [List.countP_append]
      simp [isCbFor, cbCount]

theorem jobStart_events (s : State) (f : Nat) :
    ∃ t, (jobStart s f).events = s.events ++ t ∧
      ∀ e ∈ t, e = Event.threadStarted ∨ ∃ g, e = Event.jobStarted g := by
  unfold jobStart
  cases s.jobs f with
  | none => exact ⟨[], by simp, by simp⟩
  | some j =>
      refine ⟨[Event.jobStarted f], rfl, ?_⟩
      intro e he
      simp only [List.mem_singleton] at he
      exact Or.inr ⟨f, he⟩

theorem ensureThreadStarted_fields (s : State) :
    (ensureThreadStarted s).pending_jobs = s.pending_jobs ∧
    (ensureThreadStarted s).slots = s.slots ∧
    (ensureThreadStarted s).originQueue = s.originQueue ∧
    (ensureThreadStarted s).workerQueue = s.workerQueue := by
  unfold ensureThreadStarted; split <;> exact ⟨rfl, rfl, rfl, rfl⟩

theorem wasCancelled_ensureThreadStarted (s : State) (k : Nat) :
    wasCancelled (ensureThreadStarted s) k = wasCancelled s k := by
  rw [wasCancelled_mk, wasCancelled_mk, ensureThreadStarted_jobs]

theorem cbCount_ensureThreadStarted (s : State) (k : Nat) :
    cbCount (ensureThreadStarted s) k = cbCount s k := by
  unfold ensureThreadStarted
  split
  · rfl
  · show (s.events ++ [Event.threadStarted]).countP _ = _
    rw [List.countP_append]
    simp [isCbFor, cbCount]

theorem ensureThreadStarted_events (s : State) :
    ∃ t, (ensureThreadStarted s).events = s.events ++ t ∧
      ∀ e ∈ t, e = Event.threadStarted := by
  unfold ensureThreadStarted
  split
  · exact ⟨[], by simp, by simp⟩
  · refine ⟨[Event.threadStarted], rfl, ?_⟩
    intro e he
    simpa using he

theorem processPendingJobs_cases (s : State) :
    processPendingJobs s = s ∨
    ∃ f, s.pending_jobs.head? = some f ∧ isStarted s f = false ∧
      processPendingJobs s = jobStart (ensureThreadStarted s) f := by
  cases hh : s.pending_jobs.head? with
  | none =>
      left; unfold processPendingJobs; rw [hh]
  | some f =>
      by_cases hst : isStarted s f = true
      · left; unfold processPendingJobs; rw [hh]; exact if_pos hst
      · right
        refine ⟨f, rfl, by simpa using hst, ?_⟩
        unfold processPendingJobs; rw [hh]; exact if_neg hst

theorem processPendingJobs_fields (s : State) :
    (processPendingJobs s).pending_jobs = s.pending_jobs ∧
    (processPendingJobs s).slots = s.slots ∧
    (processPendingJobs s).originQueue = s.originQueue := by
  rcases processPendingJobs_cases s with hp | ⟨f, _, _, hp⟩
  · rw [hp]; exact ⟨rfl, rfl, rfl⟩
  · rw [hp]
    obtain ⟨f1, f2, f3, _⟩ := jobStart_fields (ensureThreadStarted s) f
    obtain ⟨g1, g2, g3, _⟩ := ensureThreadStarted_fields s
    exact ⟨by rw [f1, g1], by rw [f2, g2], by rw [f3, g3]⟩

theorem wasCancelled_processPendingJobs (s : State) (k : Nat) :
    wasCancelled (processPendingJobs s) k = wasCancelled s k := by
  rcases processPendingJobs_cases s with hp | ⟨f, _, _, hp⟩
  · rw [hp]
  · rw [hp, wasCancelled_jobStart, wasCancelled_ensureThreadStarted]

theorem cbCount_processPendingJobs (s : State) (k : Nat) :
    cbCount (processPendingJobs s) k = cbCount s k := by
  rcases processPendingJobs_cases s with hp | ⟨f, _, _, hp⟩
  · rw [hp]
  · rw [hp, cbCount_jobStart, cbCount_ensureThreadStarted]

theorem processPendingJobs_events (s : State) :
    ∃ t, (processPendingJobs s).events = s.events ++ t ∧
      ∀ e ∈ t, e = Event.threadStarted ∨ ∃ g, e = Event.jobStarted g := by
  rcases processPendingJobs_cases s with hp | ⟨f, _, _, hp⟩
  · rw [hp]; exact ⟨[], by simp, by simp⟩
  · rw [hp]
    obtain ⟨t1, ht1, hall1⟩ := ensureThreadStarted_events s
    obtain ⟨t2, ht2, hall2⟩ := jobStart_events (ensureThreadStarted s) f
    refine ⟨t1 ++ t2, by rw [ht2, ht1, List.append_assoc], ?_⟩
    intro e he
    rcases List.mem_append.mp he with he | he
    · exact Or.inl (hall1 e he)
    · exact hall2 e he

theorem removeFront_fields (s : State) :
    (removeFrontOfJobsQueueAndStartNext s).pending_jobs = s.pending_jobs.tail ∧
    (removeFrontOfJobsQueueAndStartNext s).slots = s.slots ∧
    (removeFrontOfJobsQueueAndStartNext s).originQueue = s.originQueue := by
  unfold removeFrontOfJobsQueueAndStartNext
  obtain ⟨f1, f2, f3⟩ := processPendingJobs_fields
    { s with pending_jobs := s.pending_jobs.tail }
  exact ⟨f1, f2, f3⟩

theorem wasCancelled_removeFront (s : State) (k : Nat) :
    wasCancelled (removeFrontOfJobsQueueAndStartNext s) k = wasCancelled s k := by
  unfold removeFrontOfJobsQueueAndStartNext
  rw [wasCancelled_processPendingJobs]
  rfl

theorem cbCount_removeFront (s : State) (k : Nat) :
    cbCount (removeFrontOfJobsQueueAndStartNext s) k = cbCount s k := by
  unfold removeFrontOfJobsQueueAndStartNext
  rw [cbCount_processPendingJobs]
  rfl

theorem removeFront_events (s : State) :
    ∃ t, (removeFrontOfJobsQueueAndStartNext s).events = s.events ++ t ∧
      ∀ e ∈ t, e = Event.threadStarted ∨ ∃ g, e = Event.jobStarted g := by
  unfold removeFrontOfJobsQueueAndStartNext
  exact processPendingJobs_events _

theorem cancelJobRefs_fields (s : State) (jid : Nat) :
    (cancelJobRefs s jid).slots = s.slots ∧
    (cancelJobRefs s jid).workerQueue = s.workerQueue ∧
    (cancelJobRefs s jid).originQueue = s.originQueue ∧
    (cancelJobRefs s jid).startedLog = s.startedLog := by
  unfold cancelJobRefs
  cases s.jobs jid with
  | none => exact ⟨rfl, rfl, rfl, rfl⟩
  | some j => exact ⟨rfl, rfl, rfl, rfl⟩

theorem cancelJobRefs_events (s : State) (jid : Nat) :
    ∃ t, (cancelJobRefs s jid).events = s.events ++ t ∧
      ∀ e ∈ t, e = Event.cancelled jid := by
  unfold cancelJobRefs
  cases s.jobs jid with
  | none => exact ⟨[], by simp, by simp⟩
  | some j =>
      refine ⟨[Event.cancelled jid], rfl, ?_⟩
      intro e he
      simpa using he

theorem run_append (s : State) (l1 l2 : List Action) :
    run s (l1 ++ l2) = (run s l1).bind (fun s1 => run s1 l2) := by
  induction l1 generalizing s with
  | nil => rfl
  | cons a rest ih =>
      show (step s a).bind (fun s1 => run s1 (rest ++ l2)) =
        ((step s a).bind (fun s1 => run s1 rest)).bind fun s1 => run s1 l2
      cases hstep : step s a with
      | none => rfl
      | some s1 =>
          show run s1 (rest ++ l2) = (run s1 rest).bind fun s2 => run s2 l2
          exact ih s1

theorem reachable_step {s s' : State} (h : Reachable s) {a : Action}
    (hs : step s a = some s') : Reachable s' := by
  obtain ⟨epb, sl, acts, hr⟩ := h
  refine ⟨epb, sl, acts ++ [a], ?_⟩
  rw [run_append, hr]
  show (step s a).bind (fun s1 => run s1 []) = some s'
  rw [hs]
  rfl

theorem reachable_run {s s' : State} (h : Reachable s) {acts : List Action}
    (hr : run s acts = some s') : Reachable s' := by
  obtain ⟨epb, sl, acts0, hr0⟩ := h
  refine ⟨epb, sl, acts0 ++ acts, ?_⟩
  rw [run_append, hr0]
  exact hr


/-! ### Events and cancellation monotonicity -/

theorem wasCancelled_isSome {s : State} {k : Nat} (hc : wasCancelled s k = true) :
    (s.jobs k).isSome := by
  rw [wasCancelled_mk] at hc
  cases hj : s.jobs k with
  | none => rw [hj] at hc; cases hc
  | some j => rfl

theorem wasCancelled_cancelJobRefs_mono (s : State) (jid k : Nat)
    (hc : wasCancelled s k = true) :
    wasCancelled (cancelJobRefs s jid) k = true := by
  by_cases hk : k = jid
  · subst hk
    exact wasCancelled_cancelJobRefs s k (wasCancelled_isSome hc)
  · rw [wasCancelled_cancelJobRefs_other s jid k hk]
    exact hc

theorem writeOutput_jobs (s : State) (jid : Nat) :
    (writeOutput s jid).jobs = s.jobs := (writeOutput_shape s jid).1

theorem wasCancelled_writeOutput (s : State) (jid k : Nat) :
    wasCancelled (writeOutput s jid) k = wasCancelled s k := by
  rw [wasCancelled_mk, wasCancelled_mk, writeOutput_jobs]

theorem writeOutput_events (s : State) (jid : Nat) :
    ∃ t, (writeOutput s jid).events = s.events ++ t ∧
      ∀ e ∈ t, ∃ sl v, e = Event.outputWritten jid sl v := by
  unfold writeOutput
  cases s.jobs jid with
  | none => exact ⟨[], by simp, by simp⟩
  | some j =>
      show ∃ t, (useResults s jid j).events = s.events ++ t ∧
        ∀ e ∈ t, ∃ sl v, e = Event.outputWritten jid sl v
      unfold useResults
      cases j.results with
      | none => exact ⟨[], by simp, by simp⟩
      | some slot =>
          refine ⟨[Event.outputWritten jid slot j.results_buf], rfl, ?_⟩
          intro e he
          simp only [List.mem_singleton] at he
          exact ⟨slot, j.results_buf, he⟩

theorem qcDeliver_events (s : State) (jid : Nat) (rv : Int) :
    ∃ t, (qcDeliver s jid rv).events = s.events ++ t ∧
      ∀ e ∈ t, (∃ sl v, e = Event.outputWritten jid sl v) ∨
        ∃ r, e = Event.callbackRun jid r := by
  unfold qcDeliver
  by_cases hr : OK ≤ rv
  · simp only [if_pos hr]
    obtain ⟨t1, ht1, hall1⟩ := writeOutput_events s jid
    refine ⟨t1 ++ [Event.callbackRun jid rv], ?_, ?_⟩
    · show (writeOutput s jid).events ++ [Event.callbackRun jid rv] = _
      rw [ht1, List.append_assoc]
    · intro e he
      rcases List.mem_append.mp he with he | he
      · exact Or.inl (hall1 e he)
      · simp only [List.mem_singleton] at he
        exact Or.inr ⟨rv, he⟩
  · simp only [if_neg hr]
    refine ⟨[Event.callbackRun jid rv], rfl, ?_⟩
    intro e he
    simp only [List.mem_singleton] at he
    exact Or.inr ⟨rv, he⟩

theorem wasCancelled_qcAfterCallback_mono (s : State) (jid k : Nat) (cbC : Bool)
    (hc : wasCancelled s k = true) :
    wasCancelled (qcAfterCallback s jid cbC) k = true := by
  unfold qcAfterCallback
  cases cbC
  · exact hc
  · simp only [if_pos]
    exact wasCancelled_cancelJobRefs_mono s jid k hc

theorem qcAfterCallback_events (s : State) (jid : Nat) (cbC : Bool) :
    ∃ t, (qcAfterCallback s jid cbC).events = s.events ++ t ∧
      ∀ e ∈ t, e = Event.cancelled jid := by
  unfold qcAfterCallback
  cases cbC
  · exact ⟨[], by simp, by simp⟩
  · simp only [if_pos]
    exact cancelJobRefs_events s jid

theorem queryComplete_events (s : State) (jid : Nat) (rv : Int) (cbC : Bool) :
    ∃ t, (queryComplete s jid rv cbC).events = s.events ++ t ∧
      ∀ e ∈ t, e = Event.threadStarted ∨ (∃ g, e = Event.jobStarted g) ∨
        (∃ sl v, e = Event.outputWritten jid sl v) ∨ (∃ r, e = Event.callbackRun jid r) ∨
        e = Event.cancelled jid ∨ e = Event.jobTouchedDispatcher jid := by
  unfold queryComplete
  by_cases hc : wasCancelled s jid = true
  · rw [if_pos hc]
    exact ⟨[], by simp, by simp⟩
  · rw [if_neg hc]
    show ∃ t,
      (if wasCancelled (qcAfterCallback (qcDeliver s jid rv) jid cbC) jid = true
       then qcAfterCallback (qcDeliver s jid rv) jid cbC
       else removeFrontOfJobsQueueAndStartNext
         { qcAfterCallback (qcDeliver s jid rv) jid cbC with
             events := (qcAfterCallback (qcDeliver s jid rv) jid cbC).events ++
               [Event.jobTouchedDispatcher jid] }).events = s.events ++ t ∧ _
    obtain ⟨t1, ht1, hall1⟩ := qcDeliver_events s jid rv
    obtain ⟨t2, ht2, hall2⟩ := qcAfterCallback_events (qcDeliver s jid rv) jid cbC
    by_cases hc3 : wasCancelled (qcAfterCallback (qcDeliver s jid rv) jid cbC) jid = true
    · rw [if_pos hc3]
      refine ⟨t1 ++ t2, by rw [ht2, ht1, List.append_assoc], ?_⟩
      intro e he
      rcases List.mem_append.mp he with he | he
      · rcases hall1 e he with h1 | h1
        · exact Or.inr (Or.inr (Or.inl h1))
        · exact Or.inr (Or.inr (Or.inr (Or.inl h1)))
      · exact Or.inr (Or.inr (Or.inr (Or.inr (Or.inl (hall2 e he)))))
    · rw [if_neg hc3]
      obtain ⟨t3, ht3, hall3⟩ := removeFront_events
        { qcAfterCallback (qcDeliver s jid rv) jid cbC with
            events := (qcAfterCallback (qcDeliver s jid rv) jid cbC).events ++
              [Event.jobTouchedDispatcher jid] }
      refine ⟨t1 ++ t2 ++ [Event.jobTouchedDispatcher jid] ++ t3, ?_, ?_⟩
      · rw [ht3]
        show (qcAfterCallback (qcDeliver s jid rv) jid cbC).events ++
          [Event.jobTouchedDispatcher jid] ++ t3 = _
        rw [ht2, ht1]
        simp [List.append_assoc]
      · intro e he
        simp only [List.append_assoc, List.mem_append] at he
        rcases he with he | he | he | he
        · rcases hall1 e he with h1 | h1
          · exact Or.inr (Or.inr (Or.inl h1))
          · exact Or.inr (Or.inr (Or.inr (Or.inl h1)))
        · exact Or.inr (Or.inr (Or.inr (Or.inr (Or.inl (hall2 e he)))))
        · simp only [List.mem_singleton] at he
          exact Or.inr (Or.inr (Or.inr (Or.inr (Or.inr he))))
        · rcases hall3 e he with h3 | ⟨g, h3⟩
          · exact Or.inl h3
          · exact Or.inr (Or.inl ⟨g, h3⟩)

theorem wasCancelled_queryComplete_mono (s : State) (jid : Nat) (rv : Int) (cbC : Bool)
    (k : Nat) (hc : wasCancelled s k = true) :
    wasCancelled (queryComplete s jid rv cbC) k = true := by
  unfold queryComplete
  by_cases hcj : wasCancelled s jid = true
  · rw [if_pos hcj]; exact hc
  · rw [if_neg hcj]
    show wasCancelled
      (if wasCancelled (qcAfterCallback (qcDeliver s jid rv) jid cbC) jid = true
       then qcAfterCallback (qcDeliver s jid rv) jid cbC
       else removeFrontOfJobsQueueAndStartNext
         { qcAfterCallback (qcDeliver s jid rv) jid cbC with
             events := (qcAfterCallback (qcDeliver s jid rv) jid cbC).events ++
               [Event.jobTouchedDispatcher jid] }) k = true
    have h1 : wasCancelled (qcDeliver s jid rv) k = true := by
      rw [wasCancelled_qcDeliver]; exact hc
    have h2 : wasCancelled (qcAfterCallback (qcDeliver s jid rv) jid cbC) k = true :=
      wasCancelled_qcAfterCallback_mono _ jid k cbC h1
    by_cases hc3 : wasCancelled (qcAfterCallback (qcDeliver s jid rv) jid cbC) jid = true
    · rw [if_pos hc3]; exact h2
    · rw [if_neg hc3]
      rw [wasCancelled_removeFront]
      exact h2

theorem workerRunFront_events {s s' : State} {rv : Int} {info : Nat}
    (hs : workerRunFront s rv info = some s') :
    ∃ t, s'.events = s.events ++ t ∧
      ∀ e ∈ t, (∃ g u, e = Event.engineQuery g u) ∨ (∃ u, e = Event.engineSetPacByUrl u) ∨
        ∃ b, e = Event.engineSetPacByData b := by
  unfold workerRunFront at hs
  split at hs
  · exact absurd hs (by simp)
  next t rest hq =>
    split at hs
    next jid =>
      split at hs
      · exact absurd hs (by simp)
      next hrv =>
        split at hs
        next hj => exact absurd hs (by simp)
        next j hj =>
          injection hs with hs
          subst hs
          refine ⟨[Event.engineQuery jid j.url], rfl, ?_⟩
          intro e he
          simp only [List.mem_singleton] at he
          exact Or.inl ⟨jid, j.url, he⟩
    next u b =>
      injection hs with hs
      subst hs
      by_cases hb : s.expects_pac_bytes = true
      · refine ⟨[Event.engineSetPacByData b], by rw [hb]; rfl, ?_⟩
        intro e he
        simp only [List.mem_singleton] at he
        exact Or.inr (Or.inr ⟨b, he⟩)
      · replace hb : s.expects_pac_bytes = false := by simpa using hb
        refine ⟨[Event.engineSetPacByUrl u], by rw [hb]; rfl, ?_⟩
        intro e he
        simp only [List.mem_singleton] at he
        exact Or.inr (Or.inl ⟨u, he⟩)

theorem wasCancelled_workerRunFront {s s' : State} {rv : Int} {info : Nat}
    (hs : workerRunFront s rv info = some s') (k : Nat) :
    wasCancelled s' k = wasCancelled s k := by
  unfold workerRunFront at hs
  split at hs
  · exact absurd hs (by simp)
  next t rest hq =>
    split at hs
    next jid =>
      split at hs
      · exact absurd hs (by simp)
      next hrv =>
        split at hs
        next hj => exact absurd hs (by simp)
        next j hj =>
          injection hs with hs
          subst hs
          rw [wasCancelled_mk, wasCancelled_mk]
          show ((if k = jid then some _ else s.jobs k).map Job.was_cancelled).getD false = _
          by_cases hk : k = jid
          · subst hk; simp [hj, Job.was_cancelled]
          · simp [hk]
    next u b =>
      injection hs with hs
      subst hs
      rfl


theorem getProxyForURL_events (s : State) (url slot : Nat) :
    ∃ t, (getProxyForURL s url slot).2.2.events = s.events ++ t ∧
      ∀ e ∈ t, (∃ g, e = Event.submitted g) ∨ e = Event.threadStarted ∨
        ∃ g, e = Event.jobStarted g := by
  rw [getProxyForURL_eq]
  obtain ⟨t2, ht2, hall2⟩ := processPendingJobs_events (submitState s url slot)
  refine ⟨[Event.submitted s.next_job_id] ++ t2, ?_, ?_⟩
  · show (processPendingJobs (submitState s url slot)).events = _
    rw [ht2]
    show (s.events ++ [Event.submitted s.next_job_id]) ++ t2 = _
    rw [List.append_assoc]
  · intro e he
    rcases List.mem_append.mp he with he | he
    · simp only [List.mem_singleton] at he
      exact Or.inl ⟨s.next_job_id, he⟩
    · rcases hall2 e he with h | h
      · exact Or.inr (Or.inl h)
      · exact Or.inr (Or.inr h)

theorem wasCancelled_getProxyForURL (s : State) (url slot k : Nat)
    (hk : k ≠ s.next_job_id) :
    wasCancelled (getProxyForURL s url slot).2.2 k = wasCancelled s k := by
  rw [getProxyForURL_eq]
  show wasCancelled (processPendingJobs (submitState s url slot)) k = _
  rw [wasCancelled_processPendingJobs]
  rw [wasCancelled_mk, wasCancelled_mk]
  show ((if k = s.next_job_id then some (submitJob url slot) else s.jobs k).map
    Job.was_cancelled).getD false = _
  rw [if_neg hk]

theorem cancelRequest_events (s : State) (jid : Nat) :
    ∃ t, (cancelRequest s jid).events = s.events ++ t ∧
      ∀ e ∈ t, e = Event.cancelled jid ∨ e = Event.threadStarted ∨
        ∃ g, e = Event.jobStarted g := by
  by_cases ha : (isStarted s jid && (s.pending_jobs.head? == some jid)) = true
  · rw [cancelRequest_eq_active s jid ha]
    obtain ⟨t1, ht1, hall1⟩ := cancelJobRefs_events s jid
    obtain ⟨t2, ht2, hall2⟩ := removeFront_events (cancelJobRefs s jid)
    refine ⟨t1 ++ t2, by rw [ht2, ht1, List.append_assoc], ?_⟩
    intro e he
    rcases List.mem_append.mp he with he | he
    · exact Or.inl (hall1 e he)
    · rcases hall2 e he with h | h
      · exact Or.inr (Or.inl h)
      · exact Or.inr (Or.inr h)
  · replace ha : (isStarted s jid && (s.pending_jobs.head? == some jid)) = false := by
      simpa using ha
    rw [cancelRequest_eq_inactive s jid ha]
    obtain ⟨t1, ht1, hall1⟩ := cancelJobRefs_events s jid
    exact ⟨t1, ht1, fun e he => Or.inl (hall1 e he)⟩

theorem wasCancelled_cancelRequest_mono (s : State) (jid k : Nat)
    (hc : wasCancelled s k = true) :
    wasCancelled (cancelRequest s jid) k = true := by
  by_cases ha : (isStarted s jid && (s.pending_jobs.head? == some jid)) = true
  · rw [cancelRequest_eq_active s jid ha, wasCancelled_removeFront]
    exact wasCancelled_cancelJobRefs_mono s jid k hc
  · replace ha : (isStarted s jid && (s.pending_jobs.head? == some jid)) = false := by
      simpa using ha
    rw [cancelRequest_eq_inactive s jid ha]
    show wasCancelled (cancelJobRefs s jid) k = true
    exact wasCancelled_cancelJobRefs_mono s jid k hc

theorem wasCancelled_setPacScriptHelper (s : State) (u b k : Nat) :
    wasCancelled (setPacScriptHelper s u b) k = wasCancelled s k := by
  show wasCancelled (postToWorker (ensureThreadStarted s) (WTask.setPacScript u b)) k = _
  rw [wasCancelled_mk]
  show (((ensureThreadStarted s).jobs k).map Job.was_cancelled).getD false = _
  rw [ensureThreadStarted_jobs, ← wasCancelled_mk]

theorem setPacScriptHelper_events (s : State) (u b : Nat) :
    ∃ t, (setPacScriptHelper s u b).events = s.events ++ t ∧
      ∀ e ∈ t, e = Event.threadStarted := by
  obtain ⟨t, ht, hall⟩ := ensureThreadStarted_events s
  exact ⟨t, ht, hall⟩

theorem queryComplete_of_cancelled (s : State) (jid : Nat) (rv : Int) (cbC : Bool)
    (hc : wasCancelled s jid = true) :
    queryComplete s jid rv cbC = s := by
  unfold queryComplete
  rw [if_pos hc]

theorem events_step {s s' : State} {a : Action} (hs : step s a = some s') :
    ∃ t, s'.events = s.events ++ t := by
  cases a with
  | submit url slot =>
      have hs' : some (getProxyForURL s url slot).2.2 = some s' := hs
      injection hs' with hs'
      obtain ⟨t, ht, _⟩ := getProxyForURL_events s url slot
      exact ⟨t, by rw [← hs']; exact ht⟩
  | cancel jid =>
      have hs' : (if ((s.jobs jid).isSome && s.pending_jobs.contains jid) = true
          then some (cancelRequest s jid) else none) = some s' := hs
      by_cases hcond : ((s.jobs jid).isSome && s.pending_jobs.contains jid) = true
      · rw [if_pos hcond] at hs'
        injection hs' with hs'
        obtain ⟨t, ht, _⟩ := cancelRequest_events s jid
        exact ⟨t, by rw [← hs']; exact ht⟩
      · rw [if_neg hcond] at hs'; cases hs'
  | setPacByUrl u =>
      have hs' : some (setPacScriptHelper s u 0) = some s' := hs
      injection hs' with hs'
      obtain ⟨t, ht, _⟩ := setPacScriptHelper_events s u 0
      exact ⟨t, by rw [← hs']; exact ht⟩
  | setPacByData b =>
      have hs' : some (setPacScriptHelper s 0 b) = some s' := hs
      injection hs' with hs'
      obtain ⟨t, ht, _⟩ := setPacScriptHelper_events s 0 b
      exact ⟨t, by rw [← hs']; exact ht⟩
  | workerStep rv info =>
      obtain ⟨t, ht, _⟩ := workerRunFront_events hs
      exact ⟨t, ht⟩
  | originStep cbC =>
      have hs' : originRunFront s cbC = some s' := hs
      unfold originRunFront at hs'
      split at hs'
      · exact absurd hs' (by simp)
      next jid rv rest hoq =>
        injection hs' with hs'
        obtain ⟨t, ht, _⟩ :=
          queryComplete_events { s with originQueue := rest } jid rv cbC
        exact ⟨t, by rw [← hs']; exact ht⟩

theorem cbCount_le_step {s s' : State} {a : Action} (hs : step s a = some s') (k : Nat) :
    cbCount s k ≤ cbCount s' k := by
  obtain ⟨t, ht⟩ := events_step hs
  show s.events.countP (isCbFor k) ≤ s'.events.countP (isCbFor k)
  rw [ht, List.countP_append]
  omega

theorem cbCount_le_run {s s' : State} {acts : List Action}
    (hr : run s acts = some s') (k : Nat) : cbCount s k ≤ cbCount s' k := by
  induction acts generalizing s with
  | nil =>
      have hr' : some s = some s' := hr
      injection hr' with hr'
      rw [hr']
  | cons a rest ih =>
      have hr' : (step s a).bind (fun s1 => run s1 rest) = some s' := hr
      cases hstep : step s a with
      | none => rw [hstep] at hr'; cases hr'
      | some s1 =>
          rw [hstep] at hr'
          exact Nat.le_trans (cbCount_le_step hstep k) (ih hr')

/-- One step taken from a state where a job is cancelled keeps it
cancelled and produces no event in which that job runs its callback,
writes its output slot, or touches the Dispatcher. -/
theorem c2_step {s s' : State} (hInv : Inv s) {jid : Nat}
    (hc : wasCancelled s jid = true) {a : Action} (hs : step s a = some s') :
    wasCancelled s' jid = true ∧
    ∃ t, s'.events = s.events ++ t ∧ ∀ e ∈ t, touchesJob jid e = false := by
  have hjlt : jid < s.next_job_id := (hInv.alloc jid).mp (wasCancelled_isSome hc)
  cases a with
  | submit url slot =>
      have hs' : some (getProxyForURL s url slot).2.2 = some s' := hs
      injection hs' with hs'
      constructor
      · rw [← hs', wasCancelled_getProxyForURL s url slot jid (by omega)]
        exact hc
      · obtain ⟨t, ht, hall⟩ := getProxyForURL_events s url slot
        refine ⟨t, by rw [← hs']; exact ht, ?_⟩
        intro e he
        rcases hall e he with ⟨g, hg⟩ | hg | ⟨g, hg⟩ <;> subst hg <;> rfl
  | cancel j2 =>
      have hs' : (if ((s.jobs j2).isSome && s.pending_jobs.contains j2) = true
          then some (cancelRequest s j2) else none) = some s' := hs
      by_cases hcond : ((s.jobs j2).isSome && s.pending_jobs.contains j2) = true
      · rw [if_pos hcond] at hs'
        injection hs' with hs'
        constructor
        · rw [← hs']
          exact wasCancelled_cancelRequest_mono s j2 jid hc
        · obtain ⟨t, ht, hall⟩ := cancelRequest_events s j2
          refine ⟨t, by rw [← hs']; exact ht, ?_⟩
          intro e he
          rcases hall e he with hg | hg | ⟨g, hg⟩ <;> subst hg <;> rfl
      · rw [if_neg hcond] at hs'; cases hs'
  | setPacByUrl u =>
      have hs' : some (setPacScriptHelper s u 0) = some s' := hs
      injection hs' with hs'
      constructor
      · rw [← hs', wasCancelled_setPacScriptHelper]; exact hc
      · obtain ⟨t, ht, hall⟩ := setPacScriptHelper_events s u 0
        refine ⟨t, by rw [← hs']; exact ht, ?_⟩
        intro e he
        rw [hall e he]
        rfl
  | setPacByData b =>
      have hs' : some (setPacScriptHelper s 0 b) = some s' := hs
      injection hs' with hs'
      constructor
      · rw [← hs', wasCancelled_setPacScriptHelper]; exact hc
      · obtain ⟨t, ht, hall⟩ := setPacScriptHelper_events s 0 b
        refine ⟨t, by rw [← hs']; exact ht, ?_⟩
        intro e he
        rw [hall e he]
        rfl
  | workerStep rv info =>
      constructor
      · rw [wasCancelled_workerRunFront hs]; exact hc
      · obtain ⟨t, ht, hall⟩ := workerRunFront_events hs
        refine ⟨t, ht, ?_⟩
        intro e he
        rcases hall e he with ⟨g, u, hg⟩ | ⟨u, hg⟩ | ⟨b, hg⟩ <;> subst hg <;> rfl
  | originStep cbC =>
      have hs' : originRunFront s cbC = some s' := hs
      unfold originRunFront at hs'
      split at hs'
      · exact absurd hs' (by simp)
      next j2 rv rest hoq =>
        injection hs' with hs'
        by_cases hj2 : j2 = jid
        · subst hj2
          have hcp : wasCancelled { s with originQueue := rest } j2 = true := hc
          rw [queryComplete_of_cancelled _ j2 rv cbC hcp] at hs'
          constructor
          · rw [← hs']; exact hc
          · exact ⟨[], by rw [← hs']; simp, by simp⟩
        · constructor
          · rw [← hs']
            exact wasCancelled_queryComplete_mono _ j2 rv cbC jid hc
          · obtain ⟨t, ht, hall⟩ :=
              queryComplete_events { s with originQueue := rest } j2 rv cbC
            refine ⟨t, by rw [← hs']; exact ht, ?_⟩
            intro e he
            have hne : (j2 == jid) = false := by simp; omega
            rcases hall e he with hg | ⟨g, hg⟩ | ⟨sl, v, hg⟩ | ⟨r, hg⟩ | hg | hg <;>
              subst hg <;> simp [touchesJob, hne]


/-! ### Reduction equations for the dispatcher operations -/

theorem processPendingJobs_eq_empty (s : State)
    (hh : s.pending_jobs.head? = none) : processPendingJobs s = s := by
  unfold processPendingJobs; rw [hh]

theorem processPendingJobs_eq_noop (s : State) (f : Nat)
    (hh : s.pending_jobs.head? = some f) (hst : isStarted s f = true) :
    processPendingJobs s = s := by
  unfold processPendingJobs; rw [hh]; exact if_pos hst

theorem processPendingJobs_eq_start (s : State) (f : Nat)
    (hh : s.pending_jobs.head? = some f) (hst : isStarted s f = false) :
    processPendingJobs s = jobStart (ensureThreadStarted s) f := by
  unfold processPendingJobs; rw [hh]
  exact if_neg (by simp [hst])

theorem originRunFront_eq (s : State) (jid : Nat) (rv : Int) (rest : List OTask)
    (cbC : Bool) (hq : s.originQueue = OTask.queryComplete jid rv :: rest) :
    originRunFront s cbC =
      some (queryComplete { s with originQueue := rest } jid rv cbC) := by
  unfold originRunFront
  rw [hq]

theorem queryComplete_eq_not_cancelled (s : State) (jid : Nat) (rv : Int) (cbC : Bool)
    (hc : wasCancelled s jid = false) :
    queryComplete s jid rv cbC =
      (if wasCancelled (qcAfterCallback (qcDeliver s jid rv) jid cbC) jid = true
       then qcAfterCallback (qcDeliver s jid rv) jid cbC
       else removeFrontOfJobsQueueAndStartNext
         { qcAfterCallback (qcDeliver s jid rv) jid cbC with
             events := (qcAfterCallback (qcDeliver s jid rv) jid cbC).events ++
               [Event.jobTouchedDispatcher jid] }) := by
  unfold queryComplete
  rw [if_neg (by simp [hc])]

theorem qcDeliver_eq_pos (s : State) (jid : Nat) (rv : Int) (hr : OK ≤ rv) :
    qcDeliver s jid rv =
      { writeOutput s jid with
          events := (writeOutput s jid).events ++ [Event.callbackRun jid rv] } := by
  unfold qcDeliver
  rw [if_pos hr]

theorem qcDeliver_eq_neg (s : State) (jid : Nat) (rv : Int) (hr : ¬ OK ≤ rv) :
    qcDeliver s jid rv =
      { s with events := s.events ++ [Event.callbackRun jid rv] } := by
  unfold qcDeliver
  rw [if_neg hr]

theorem writeOutput_eq (s : State) (jid : Nat) (j : Job) (slot : Nat)
    (hj : s.jobs jid = some j) (hr : j.results = some slot) :
    writeOutput s jid =
      { s with slots := fun k => if k = slot then j.results_buf else s.slots k,
               events := s.events ++ [Event.outputWritten jid slot j.results_buf] } := by
  unfold writeOutput
  rw [hj]
  show useResults s jid j = _
  unfold useResults
  rw [hr]

theorem ensureThreadStarted_started (s : State) :
    (ensureThreadStarted s).thread_started = true := by
  by_cases h : s.thread_started = true
  · rw [ensureThreadStarted_of_started s h]; exact h
  · replace h : s.thread_started = false := by simpa using h
    rw [ensureThreadStarted_of_not_started s h]

/-! ### Functional specification of GetProxyForURL -/

theorem getProxyForURL_spec {s : State} (h : Inv s) (url slot : Nat) :
    (getProxyForURL s url slot).1 = ERR_IO_PENDING ∧
    (getProxyForURL s url slot).2.1 = s.next_job_id ∧
    (getProxyForURL s url slot).2.2.pending_jobs = s.pending_jobs ++ [s.next_job_id] ∧
    (getProxyForURL s url slot).2.2.originQueue = s.originQueue ∧
    (getProxyForURL s url slot).2.2.slots = s.slots ∧
    (∀ y, cbCount (getProxyForURL s url slot).2.2 y = cbCount s y) ∧
    (∃ jb, (getProxyForURL s url slot).2.2.jobs s.next_job_id = some jb ∧
        jb.callback = true ∧ jb.was_cancelled = false ∧ jb.url = url ∧
        jb.results = some slot) ∧
    (s.pending_jobs = [] →
        isStarted (getProxyForURL s url slot).2.2 s.next_job_id = true ∧
        (getProxyForURL s url slot).2.2.workerQueue =
          s.workerQueue ++ [WTask.doQuery s.next_job_id] ∧
        (getProxyForURL s url slot).2.2.thread_started = true) ∧
    (s.pending_jobs ≠ [] →
        isStarted (getProxyForURL s url slot).2.2 s.next_job_id = false ∧
        (getProxyForURL s url slot).2.2.workerQueue = s.workerQueue) := by
  rw [getProxyForURL_eq]
  have hXjobs : (submitState s url slot).jobs s.next_job_id = some (submitJob url slot) := by
    show (if s.next_job_id = s.next_job_id then some (submitJob url slot)
      else s.jobs s.next_job_id) = _
    rw [if_pos rfl]
  have hcbX : ∀ y, cbCount (submitState s url slot) y = cbCount s y := by
    intro y
    show (s.events ++ [Event.submitted s.next_job_id]).countP _ = _
    rw [List.countP_append]
    simp [isCbFor, cbCount]
  cases hpend : s.pending_jobs with
  | nil =>
      have hh : (submitState s url slot).pending_jobs.head? = some s.next_job_id := by
        show (s.pending_jobs ++ [s.next_job_id]).head? = _
        rw [hpend]
        rfl
      have hns : isStarted (submitState s url slot) s.next_job_id = false := by
        rw [isStarted_mk, hXjobs]
        rfl
      have hEjobs : (ensureThreadStarted (submitState s url slot)).jobs s.next_job_id =
          some (submitJob url slot) := by
        rw [ensureThreadStarted_jobs]; exact hXjobs
      have hred : processPendingJobs (submitState s url slot) =
          jobStart (ensureThreadStarted (submitState s url slot)) s.next_job_id :=
        processPendingJobs_eq_start _ _ hh hns
      rw [hred, jobStart_eq _ _ _ hEjobs]
      refine ⟨rfl, rfl, ?_, ?_, ?_, ?_, ?_, ?_, ?_⟩
      · show (ensureThreadStarted (submitState s url slot)).pending_jobs = _
        rw [ensureThreadStarted_pending]
        show s.pending_jobs ++ [s.next_job_id] = _
        rw [hpend]
      · show (ensureThreadStarted (submitState s url slot)).originQueue = _
        rw [(ensureThreadStarted_fields (submitState s url slot)).2.2.1]
        rfl
      · show (ensureThreadStarted (submitState s url slot)).slots = _
        rw [(ensureThreadStarted_fields (submitState s url slot)).2.1]
        rfl
      · intro y
        show ((ensureThreadStarted (submitState s url slot)).events ++
          [Event.jobStarted s.next_job_id]).countP (isCbFor y) = _
        rw [List.countP_append]
        have := cbCount_ensureThreadStarted (submitState s url slot) y
        show cbCount (ensureThreadStarted (submitState s url slot)) y + _ = _
        rw [this, hcbX y]
        simp [isCbFor]
      · refine ⟨{ submitJob url slot with is_started := true }, ?_, rfl, rfl, rfl, rfl⟩
        show (if s.next_job_id = s.next_job_id then _ else _) = _
        rw [if_pos rfl]
      · intro _
        refine ⟨?_, ?_, ?_⟩
        · rw [isStarted_mk]
          show ((if s.next_job_id = s.next_job_id then
            some { submitJob url slot with is_started := true } else _).map
              Job.is_started).getD false = true
          rw [if_pos rfl]
          rfl
        · show (ensureThreadStarted (submitState s url slot)).workerQueue ++ _ = _
          rw [(ensureThreadStarted_fields (submitState s url slot)).2.2.2]
          rfl
        · show (ensureThreadStarted (submitState s url slot)).thread_started = true
          exact ensureThreadStarted_started _
      · intro hne
        exact absurd rfl hne
  | cons a t =>
      have hane : a ≠ s.next_job_id := by
        have := h.pendingAlloc a (by rw [hpend]; exact List.mem_cons_self a t)
        omega
      have hh : (submitState s url slot).pending_jobs.head? = some a := by
        show (s.pending_jobs ++ [s.next_job_id]).head? = _
        rw [hpend]
        rfl
      have hsta : isStarted (submitState s url slot) a = true := by
        rw [isStarted_mk]
        show ((if a = s.next_job_id then some (submitJob url slot) else s.jobs a).map
          Job.is_started).getD false = true
        rw [if_neg hane, ← isStarted_mk]
        exact h.frontStarted a (by rw [hpend]; rfl)
      have hred : processPendingJobs (submitState s url slot) = submitState s url slot :=
        processPendingJobs_eq_noop _ a hh hsta
      rw [hred]
      refine ⟨rfl, rfl, ?_, rfl, rfl, hcbX, ?_, ?_, ?_⟩
      · show s.pending_jobs ++ [s.next_job_id] = _
        rw [hpend]
      · exact ⟨submitJob url slot, hXjobs, rfl, rfl, rfl, rfl⟩
      · intro hcontra
        cases hcontra
      · intro _
        refine ⟨?_, rfl⟩
        rw [isStarted_mk, hXjobs]
        rfl


/-! ### Functional specification of CancelRequest -/

theorem restUnstarted {s : State} (h : Inv s) {a : Nat} {t : List Nat}
    (hl : s.pending_jobs = a :: t) : ∀ y ∈ t, isStarted s y = false := by
  intro y hyt
  by_contra hy
  replace hy : isStarted s y = true := by simpa using hy
  have h1 := h.startedMin y hy a (by rw [hl]; exact List.mem_cons_self a t)
  have hsor := h.sorted
  rw [hl] at hsor
  have h2 : a < y := (List.pairwise_cons.mp hsor).1 y hyt
  omega

theorem cancelRequest_spec_active {s : State} (h : Inv s) {jid : Nat}
    (hmem : jid ∈ s.pending_jobs) (hst : isStarted s jid = true) :
    wasCancelled (cancelRequest s jid) jid = true ∧
    (cancelRequest s jid).pending_jobs = s.pending_jobs.tail ∧
    (cancelRequest s jid).originQueue = s.originQueue ∧
    (∀ f, s.pending_jobs.tail.head? = some f →
        isStarted (cancelRequest s jid) f = true ∧
        (cancelRequest s jid).workerQueue = s.workerQueue ++ [WTask.doQuery f]) ∧
    (s.pending_jobs.tail = [] → (cancelRequest s jid).workerQueue = s.workerQueue) := by
  have hsomej : (s.jobs jid).isSome := (h.alloc jid).mpr (h.pendingAlloc jid hmem)
  have hhead : s.pending_jobs.head? = some jid := activeFront h.toPreInv hst hmem
  have ha : (isStarted s jid && (s.pending_jobs.head? == some jid)) = true := by
    rw [hst, hhead]
    simp
  rw [cancelRequest_eq_active s jid ha]
  obtain ⟨j0, hj0⟩ := Option.isSome_iff_exists.mp hsomej
  -- the state after Job::Cancel
  have hCpend : (cancelJobRefs s jid).pending_jobs = s.pending_jobs :=
    cancelJobRefs_pending s jid
  have hCwq : (cancelJobRefs s jid).workerQueue = s.workerQueue :=
    (cancelJobRefs_fields s jid).2.1
  have hCoq : (cancelJobRefs s jid).originQueue = s.originQueue :=
    (cancelJobRefs_fields s jid).2.2.1
  have hCstart : ∀ y, isStarted (cancelJobRefs s jid) y = isStarted s y :=
    isStarted_cancelJobRefs s jid
  have hCcanc : wasCancelled (cancelJobRefs s jid) jid = true :=
    wasCancelled_cancelJobRefs s jid hsomej
  -- after popping the front, the queue is the old tail
  have hPop : ({ cancelJobRefs s jid with
      pending_jobs := (cancelJobRefs s jid).pending_jobs.tail } : State).pending_jobs =
      s.pending_jobs.tail := by rw [hCpend]
  unfold removeFrontOfJobsQueueAndStartNext
  cases htail : s.pending_jobs.tail with
  | nil =>
      have hh : ({ cancelJobRefs s jid with
          pending_jobs := (cancelJobRefs s jid).pending_jobs.tail } : State
            ).pending_jobs.head? = none := by
        rw [hPop, htail]
        rfl
      rw [processPendingJobs_eq_empty _ hh]
      refine ⟨hCcanc, by rw [hPop]; exact htail, hCoq, ?_, fun _ => hCwq⟩
      intro f hf
      exact absurd hf (by simp)
  | cons f t' =>
      have hfs : isStarted s f = false := by
        obtain ⟨t0, hl0⟩ : ∃ t0, s.pending_jobs = jid :: t0 := by
          cases hl : s.pending_jobs with
          | nil => rw [hl] at hhead; cases hhead
          | cons x y =>
              rw [hl] at hhead
              injection hhead with hhead
              exact ⟨y, by rw [hhead]⟩
        have ht0 : t0 = f :: t' := by
          have : s.pending_jobs.tail = t0 := by rw [hl0]; rfl
          rw [htail] at this
          exact this.symm
        exact restUnstarted h hl0 f (by rw [ht0]; exact List.mem_cons_self f t')
      have hh : ({ cancelJobRefs s jid with
          pending_jobs := (cancelJobRefs s jid).pending_jobs.tail } : State
            ).pending_jobs.head? = some f := by
        rw [hPop, htail]
        rfl
      have hns : isStarted ({ cancelJobRefs s jid with
          pending_jobs := (cancelJobRefs s jid).pending_jobs.tail } : State) f = false := by
        have : isStarted ({ cancelJobRefs s jid with
            pending_jobs := (cancelJobRefs s jid).pending_jobs.tail } : State) f =
            isStarted (cancelJobRefs s jid) f := by
          rw [isStarted_mk, isStarted_mk]
        rw [this, hCstart f]
        exact hfs
      rw [processPendingJobs_eq_start _ f hh hns]
      set sPop := ({ cancelJobRefs s jid with
        pending_jobs := (cancelJobRefs s jid).pending_jobs.tail } : State) with hsPop
      obtain ⟨jf, hjf⟩ : ∃ jf, (ensureThreadStarted sPop).jobs f = some jf := by
        rw [ensureThreadStarted_jobs]
        have halloc : f < s.next_job_id := by
          apply h.pendingAlloc
          have : f ∈ s.pending_jobs.tail := by rw [htail]; exact List.mem_cons_self f t'
          exact (List.tail_sublist s.pending_jobs).mem this
        have : (sPop.jobs f).isSome := by
          show ((cancelJobRefs s jid).jobs f).isSome
          unfold cancelJobRefs
          rw [hj0]
          show ((setJob s jid j0.cancel).jobs f).isSome
          unfold setJob
          by_cases hfj : f = jid
          · simp [hfj]
          · show (if f = jid then some j0.cancel else s.jobs f).isSome
            rw [if_neg hfj]
            exact (h.alloc f).mpr halloc
        exact Option.isSome_iff_exists.mp this
      rw [jobStart_eq _ f jf hjf]
      refine ⟨?_, ?_, ?_, ?_, ?_⟩
      · show wasCancelled ({ (ensureThreadStarted sPop) with
          jobs := _, workerQueue := _, postedLog := _, events := _, startedLog := _ } :
            State) jid = true
        rw [wasCancelled_mk]
        show ((if jid = f then some { jf with is_started := true }
          else (ensureThreadStarted sPop).jobs jid).map Job.was_cancelled).getD false = true
        have hjf_ne : jid ≠ f := by
          intro hcontra
          rw [← hcontra] at hfs
          rw [hst] at hfs
          cases hfs
        rw [if_neg hjf_ne, ensureThreadStarted_jobs, ← wasCancelled_mk]
        show wasCancelled (cancelJobRefs s jid) jid = true
        exact hCcanc
      · show (ensureThreadStarted sPop).pending_jobs = _
        rw [ensureThreadStarted_pending, hPop]
        exact htail
      · show (ensureThreadStarted sPop).originQueue = _
        rw [(ensureThreadStarted_fields sPop).2.2.1]
        show (cancelJobRefs s jid).originQueue = _
        exact hCoq
      · intro g hg
        have hg2 : some f = some g := hg
        injection hg2 with hg
        constructor
        · rw [isStarted_mk]
          show ((if g = f then some { jf with is_started := true }
            else (ensureThreadStarted sPop).jobs g).map Job.is_started).getD false = true
          rw [if_pos hg.symm]
          rfl
        · show (ensureThreadStarted sPop).workerQueue ++ [WTask.doQuery f] = _
          rw [(ensureThreadStarted_fields sPop).2.2.2]
          show (cancelJobRefs s jid).workerQueue ++ _ = _
          rw [hCwq, hg]
      · intro hcontra
        cases hcontra

theorem cancelRequest_spec_inactive {s : State} (h : Inv s) {jid : Nat}
    (hmem : jid ∈ s.pending_jobs) (hns : isStarted s jid = false) :
    wasCancelled (cancelRequest s jid) jid = true ∧
    (cancelRequest s jid).pending_jobs = s.pending_jobs.erase jid ∧
    (∀ k, k ≠ jid → (cancelRequest s jid).jobs k = s.jobs k) ∧
    (cancelRequest s jid).workerQueue = s.workerQueue ∧
    (cancelRequest s jid).originQueue = s.originQueue ∧
    (∀ f, s.pending_jobs.head? = some f → f ≠ jid ∧
        (cancelRequest s jid).pending_jobs.head? = some f ∧
        isStarted (cancelRequest s jid) f = true) := by
  have hsomej : (s.jobs jid).isSome := (h.alloc jid).mpr (h.pendingAlloc jid hmem)
  obtain ⟨j0, hj0⟩ := Option.isSome_iff_exists.mp hsomej
  have ha : (isStarted s jid && (s.pending_jobs.head? == some jid)) = false := by
    rw [hns]
    rfl
  rw [cancelRequest_eq_inactive s jid ha]
  have hCjobs_other : ∀ k, k ≠ jid → (cancelJobRefs s jid).jobs k = s.jobs k := by
    intro k hk
    unfold cancelJobRefs
    rw [hj0]
    show (if k = jid then some j0.cancel else s.jobs k) = s.jobs k
    rw [if_neg hk]
  have hheadne : ∀ f, s.pending_jobs.head? = some f → f ≠ jid := by
    intro f hf hcontra
    rw [hcontra] at hf
    have := h.frontStarted jid hf
    rw [hns] at this
    cases this
  refine ⟨?_, ?_, hCjobs_other, ?_, ?_, ?_⟩
  · show wasCancelled (cancelJobRefs s jid) jid = true
    exact wasCancelled_cancelJobRefs s jid hsomej
  · show (cancelJobRefs s jid).pending_jobs.erase jid = _
    rw [cancelJobRefs_pending]
  · exact (cancelJobRefs_fields s jid).2.1
  · exact (cancelJobRefs_fields s jid).2.2.1
  · intro f hf
    refine ⟨hheadne f hf, ?_, ?_⟩
    · show ((cancelJobRefs s jid).pending_jobs.erase jid).head? = some f
      rw [cancelJobRefs_pending]
      cases hl : s.pending_jobs with
      | nil => rw [hl] at hf; cases hf
      | cons x y =>
          rw [hl] at hf
          injection hf with hf
          have hxne : (x == jid) = false := by
            have hthis := hheadne f (by rw [hl, hf]; rfl)
            have hxj : x ≠ jid := by rw [hf]; exact hthis
            simp [hxj]
          rw [List.erase_cons, hxne]
          simp only [Bool.false_eq_true, if_false]
          rw [← hf]
          rfl
    · show isStarted (cancelJobRefs s jid) f = true
      rw [isStarted_cancelJobRefs]
      exact h.frontStarted f hf


/-! ### Functional specification of the completion path -/

theorem qcAfterCallback_slots (s : State) (jid : Nat) (cbC : Bool) :
    (qcAfterCallback s jid cbC).slots = s.slots := by
  unfold qcAfterCallback
  cases cbC
  · rfl
  · simp only [if_pos]
    exact (cancelJobRefs_fields s jid).1

theorem qcAfterCallback_workerQueue (s : State) (jid : Nat) (cbC : Bool) :
    (qcAfterCallback s jid cbC).workerQueue = s.workerQueue := by
  unfold qcAfterCallback
  cases cbC
  · rfl
  · simp only [if_pos]
    exact (cancelJobRefs_fields s jid).2.1

theorem qcAfterCallback_startedLog (s : State) (jid : Nat) (cbC : Bool) :
    (qcAfterCallback s jid cbC).startedLog = s.startedLog := by
  unfold qcAfterCallback
  cases cbC
  · rfl
  · simp only [if_pos]
    exact (cancelJobRefs_fields s jid).2.2.2

theorem originRunFront_spec {s s' : State} (h : Inv s) {jid : Nat} {rv : Int}
    {rest : List OTask} {cbC : Bool} {j0 : Job} {slot : Nat}
    (hq : s.originQueue = OTask.queryComplete jid rv :: rest)
    (hnc : wasCancelled s jid = false)
    (hj : s.jobs jid = some j0) (hslot : j0.results = some slot)
    (hs : originRunFront s cbC = some s') :
    Event.callbackRun jid rv ∈ s'.events ∧
    cbCount s' jid = 1 ∧
    (OK ≤ rv → s'.slots slot = j0.results_buf ∧
        Event.outputWritten jid slot j0.results_buf ∈ s'.events ∧
        (∀ k, k ≠ slot → s'.slots k = s.slots k)) ∧
    (rv < OK → ∀ k, s'.slots k = s.slots k) := by
  rw [originRunFront_eq s jid rv rest cbC hq] at hs
  injection hs with hs
  subst hs
  have hnc0 : wasCancelled { s with originQueue := rest } jid = false := hnc
  have hj00 : ({ s with originQueue := rest } : State).jobs jid = some j0 := hj
  have hq1 : 1 ≤ qCount s jid := by
    simp [qCount, hq, List.countP_cons, isQCFor]
  have hst : isStarted s jid = true := by
    by_contra hns
    have := (h.counts0 jid (by simpa using hns)).2.1
    omega
  have hcb0 : cbCount s jid = 0 := by
    have := h.countsLe jid
    omega
  have hcb00 : cbCount { s with originQueue := rest } jid = 0 := hcb0
  rw [queryComplete_eq_not_cancelled { s with originQueue := rest } jid rv cbC hnc0]
  set s0 : State := { s with originQueue := rest } with hs0
  set D : State := qcDeliver s0 jid rv with hD
  have hDev : Event.callbackRun jid rv ∈ D.events := by
    rw [hD]
    by_cases hr : OK ≤ rv
    · rw [qcDeliver_eq_pos s0 jid rv hr]
      show _ ∈ (writeOutput s0 jid).events ++ [Event.callbackRun jid rv]
      simp
    · rw [qcDeliver_eq_neg s0 jid rv hr]
      show _ ∈ s0.events ++ [Event.callbackRun jid rv]
      simp
  have hDcb : cbCount D jid = 1 := by
    rw [hD, cbCount_qcDeliver]
    rw [hcb00]
    simp
  have hDslots_pos : OK ≤ rv →
      D.slots slot = j0.results_buf ∧ (∀ k, k ≠ slot → D.slots k = s.slots k) ∧
        Event.outputWritten jid slot j0.results_buf ∈ D.events := by
    intro hr
    rw [hD, qcDeliver_eq_pos s0 jid rv hr, writeOutput_eq s0 jid j0 slot hj00 hslot]
    refine ⟨?_, ?_, ?_⟩
    · show (if slot = slot then j0.results_buf else s0.slots slot) = _
      rw [if_pos rfl]
    · intro k hk
      show (if k = slot then j0.results_buf else s0.slots k) = s.slots k
      rw [if_neg hk]
    · show _ ∈ (s0.events ++ [Event.outputWritten jid slot j0.results_buf]) ++
        [Event.callbackRun jid rv]
      simp
  have hDslots_neg : ¬ OK ≤ rv → ∀ k, D.slots k = s.slots k := by
    intro hr k
    rw [hD, qcDeliver_eq_neg s0 jid rv hr]
  set A : State := qcAfterCallback D jid cbC with hA
  have hAev : ∀ e, e ∈ D.events → e ∈ A.events := by
    intro e he
    obtain ⟨t, ht, _⟩ := qcAfterCallback_events D jid cbC
    rw [hA, ht]
    exact List.mem_append.mpr (Or.inl he)
  have hAcb : cbCount A jid = 1 := by
    rw [hA, cbCount_qcAfterCallback]
    exact hDcb
  have hAslots : A.slots = D.slots := by
    rw [hA]
    exact qcAfterCallback_slots D jid cbC
  by_cases hc3 : wasCancelled A jid = true
  · rw [if_pos hc3]
    refine ⟨hAev _ hDev, hAcb, ?_, ?_⟩
    · intro hr
      obtain ⟨h1, h2, h3⟩ := hDslots_pos hr
      exact ⟨by rw [hAslots]; exact h1, hAev _ h3, fun k hk => by rw [hAslots]; exact h2 k hk⟩
    · intro hr k
      rw [hAslots]
      exact hDslots_neg (by omega) k
  · rw [if_neg hc3]
    set B : State := { A with events := A.events ++ [Event.jobTouchedDispatcher jid] }
      with hB
    obtain ⟨t3, ht3, _⟩ := removeFront_events B
    have hRslots : (removeFrontOfJobsQueueAndStartNext B).slots = A.slots := by
      rw [(removeFront_fields B).2.1, hB]
    have hRev : ∀ e, e ∈ A.events → e ∈ (removeFrontOfJobsQueueAndStartNext B).events := by
      intro e he
      rw [ht3]
      apply List.mem_append.mpr
      left
      show e ∈ A.events ++ [Event.jobTouchedDispatcher jid]
      exact List.mem_append.mpr (Or.inl he)
    have hRcb : cbCount (removeFrontOfJobsQueueAndStartNext B) jid = 1 := by
      rw [cbCount_removeFront]
      show (A.events ++ [Event.jobTouchedDispatcher jid]).countP (isCbFor jid) = 1
      rw [List.countP_append]
      have : cbCount A jid = 1 := hAcb
      simp [isCbFor, cbCount] at this ⊢
      exact this
    refine ⟨hRev _ (hAev _ hDev), hRcb, ?_, ?_⟩
    · intro hr
      obtain ⟨h1, h2, h3⟩ := hDslots_pos hr
      refine ⟨by rw [hRslots, hAslots]; exact h1, hRev _ (hAev _ h3), ?_⟩
      intro k hk
      rw [hRslots, hAslots]
      exact h2 k hk
    · intro hr k
      rw [hRslots, hAslots]
      exact hDslots_neg (by omega) k

/-! ### The re-entrant-cancellation branch of QueryComplete -/

theorem queryComplete_reentrant_spec (s : State) (jid : Nat) (rv : Int)
    (hnc : wasCancelled s jid = false) (hsome : (s.jobs jid).isSome) :
    (queryComplete s jid rv true).pending_jobs = s.pending_jobs ∧
    (queryComplete s jid rv true).workerQueue = s.workerQueue ∧
    (queryComplete s jid rv true).startedLog = s.startedLog ∧
    ∃ t, (queryComplete s jid rv true).events = s.events ++ t ∧
      Event.jobTouchedDispatcher jid ∉ t := by
  rw [queryComplete_eq_not_cancelled s jid rv true hnc]
  have hDjobs : (qcDeliver s jid rv).jobs = s.jobs := (qcDeliver_shape s jid rv).1
  have hDsome : ((qcDeliver s jid rv).jobs jid).isSome := by
    rw [hDjobs]
    exact hsome
  have hc3 : wasCancelled (qcAfterCallback (qcDeliver s jid rv) jid true) jid = true := by
    show wasCancelled (cancelJobRefs (qcDeliver s jid rv) jid) jid = true
    exact wasCancelled_cancelJobRefs _ jid hDsome
  rw [if_pos hc3]
  refine ⟨?_, ?_, ?_, ?_⟩
  · rw [qcAfterCallback_pending, (qcDeliver_shape s jid rv).2.1]
  · rw [qcAfterCallback_workerQueue, (qcDeliver_shape s jid rv).2.2.1]
  · rw [qcAfterCallback_startedLog, (qcDeliver_shape s jid rv).2.2.2.2.2.2.1]
  · obtain ⟨t1, ht1, hall1⟩ := qcDeliver_events s jid rv
    obtain ⟨t2, ht2, hall2⟩ := qcAfterCallback_events (qcDeliver s jid rv) jid true
    refine ⟨t1 ++ t2, by rw [ht2, ht1, List.append_assoc], ?_⟩
    intro hmem
    rcases List.mem_append.mp hmem with hmem | hmem
    · rcases hall1 _ hmem with ⟨sl, v, hg⟩ | ⟨r, hg⟩ <;> cases hg
    · have := hall2 _ hmem
      cases this

theorem queryComplete_advance_spec (s : State) (jid : Nat) (rv : Int)
    (hnc : wasCancelled s jid = false) :
    (queryComplete s jid rv false).pending_jobs = s.pending_jobs.tail ∧
    ∃ t, (queryComplete s jid rv false).events = s.events ++ t ∧
      Event.jobTouchedDispatcher jid ∈ t := by
  rw [queryComplete_eq_not_cancelled s jid rv false hnc]
  have hA : qcAfterCallback (qcDeliver s jid rv) jid false = qcDeliver s jid rv := rfl
  have hc3 : ¬ wasCancelled (qcAfterCallback (qcDeliver s jid rv) jid false) jid = true := by
    rw [hA, wasCancelled_qcDeliver, hnc]
    simp
  rw [if_neg hc3]
  constructor
  · rw [(removeFront_fields _).1]
    show (qcAfterCallback (qcDeliver s jid rv) jid false).pending_jobs.tail = _
    rw [hA, (qcDeliver_shape s jid rv).2.1]
  · obtain ⟨t1, ht1, _⟩ := qcDeliver_events s jid rv
    obtain ⟨t3, ht3, _⟩ := removeFront_events
      { qcAfterCallback (qcDeliver s jid rv) jid false with
          events := (qcAfterCallback (qcDeliver s jid rv) jid false).events ++
            [Event.jobTouchedDispatcher jid] }
    refine ⟨t1 ++ [Event.jobTouchedDispatcher jid] ++ t3, ?_, ?_⟩
    · rw [ht3]
      show (qcAfterCallback (qcDeliver s jid rv) jid false).events ++
        [Event.jobTouchedDispatcher jid] ++ t3 = _
      rw [hA, ht1]
      simp [List.append_assoc]
    · simp


/-! ### Worker-thread lifecycle -/

theorem threadStep_post {s0 s1 s2 : State} (h01 : ThreadStep s0 s1)
    (ha : s2.thread_started = s1.thread_started)
    (hb : s2.thread_start_count = s1.thread_start_count) : ThreadStep s0 s2 := by
  rcases h01 with ⟨h1, h2⟩ | ⟨h1, h2, h3⟩
  · exact Or.inl ⟨by rw [ha, h1], by rw [hb, h2]⟩
  · exact Or.inr ⟨h1, by rw [ha]; exact h2, by rw [hb]; exact h3⟩

theorem threadStep_congr {s0 s1 s2 : State}
    (ha : s1.thread_started = s0.thread_started)
    (hb : s1.thread_start_count = s0.thread_start_count)
    (h12 : ThreadStep s1 s2) : ThreadStep s0 s2 := by
  rcases h12 with ⟨h1, h2⟩ | ⟨h1, h2, h3⟩
  · exact Or.inl ⟨by rw [h1, ha], by rw [h2, hb]⟩
  · exact Or.inr ⟨by rw [← ha]; exact h1, h2, by rw [h3, hb]⟩

theorem threadStep_ensure (s : State) : ThreadStep s (ensureThreadStarted s) := by
  by_cases h : s.thread_started = true
  · rw [ensureThreadStarted_of_started s h]
    exact Or.inl ⟨rfl, rfl⟩
  · replace h : s.thread_started = false := by simpa using h
    rw [ensureThreadStarted_of_not_started s h]
    exact Or.inr ⟨h, rfl, rfl⟩

theorem threadStep_process (s : State) : ThreadStep s (processPendingJobs s) := by
  rcases processPendingJobs_cases s with hp | ⟨f, _, _, hp⟩
  · rw [hp]
    exact Or.inl ⟨rfl, rfl⟩
  · rw [hp]
    obtain ⟨_, _, _, f4, f5⟩ := jobStart_fields (ensureThreadStarted s) f
    exact threadStep_post (threadStep_ensure s) f4 f5

theorem threadStep_removeFront (s : State) :
    ThreadStep s (removeFrontOfJobsQueueAndStartNext s) := by
  unfold removeFrontOfJobsQueueAndStartNext
  exact threadStep_congr rfl rfl
    (threadStep_process { s with pending_jobs := s.pending_jobs.tail })

theorem cancelJobRefs_thread (s : State) (jid : Nat) :
    (cancelJobRefs s jid).thread_started = s.thread_started ∧
    (cancelJobRefs s jid).thread_start_count = s.thread_start_count := by
  unfold cancelJobRefs
  cases s.jobs jid <;> exact ⟨rfl, rfl⟩

theorem workerRunFront_thread {s s' : State} {rv : Int} {info : Nat}
    (hs : workerRunFront s rv info = some s') :
    s'.thread_started = s.thread_started ∧
    s'.thread_start_count = s.thread_start_count := by
  unfold workerRunFront at hs
  split at hs
  · exact absurd hs (by simp)
  next t rest hq =>
    split at hs
    next jid =>
      split at hs
      · exact absurd hs (by simp)
      next hrv =>
        split at hs
        next hj => exact absurd hs (by simp)
        next j hj =>
          injection hs with hs
          subst hs
          exact ⟨rfl, rfl⟩
    next u b =>
      injection hs with hs
      subst hs
      exact ⟨rfl, rfl⟩

theorem qcAfterCallback_thread (s : State) (jid : Nat) (cbC : Bool) :
    (qcAfterCallback s jid cbC).thread_started = s.thread_started ∧
    (qcAfterCallback s jid cbC).thread_start_count = s.thread_start_count := by
  unfold qcAfterCallback
  cases cbC
  · exact ⟨rfl, rfl⟩
  · simp only [if_pos]
    exact cancelJobRefs_thread s jid

theorem threadStep_queryComplete (s : State) (jid : Nat) (rv : Int) (cbC : Bool) :
    ThreadStep s (queryComplete s jid rv cbC) := by
  by_cases hc : wasCancelled s jid = true
  · rw [queryComplete_of_cancelled s jid rv cbC hc]
    exact Or.inl ⟨rfl, rfl⟩
  · replace hc : wasCancelled s jid = false := by simpa using hc
    rw [queryComplete_eq_not_cancelled s jid rv cbC hc]
    have hD := (qcDeliver_shape s jid rv).2.2.2.2.2.2.2.2
    have hA := qcAfterCallback_thread (qcDeliver s jid rv) jid cbC
    by_cases hc3 : wasCancelled (qcAfterCallback (qcDeliver s jid rv) jid cbC) jid = true
    · rw [if_pos hc3]
      exact Or.inl ⟨by rw [hA.1, hD.1], by rw [hA.2, hD.2]⟩
    · rw [if_neg hc3]
      refine threadStep_congr ?_ ?_
        (threadStep_removeFront { qcAfterCallback (qcDeliver s jid rv) jid cbC with
          events := (qcAfterCallback (qcDeliver s jid rv) jid cbC).events ++
            [Event.jobTouchedDispatcher jid] })
      · show (qcAfterCallback (qcDeliver s jid rv) jid cbC).thread_started = _
        rw [hA.1, hD.1]
      · show (qcAfterCallback (qcDeliver s jid rv) jid cbC).thread_start_count = _
        rw [hA.2, hD.2]

theorem threadStep_step {s s' : State} {a : Action} (hs : step s a = some s') :
    ThreadStep s s' := by
  cases a with
  | submit url slot =>
      have hs' : some (getProxyForURL s url slot).2.2 = some s' := hs
      injection hs' with hs'
      rw [← hs', getProxyForURL_eq]
      exact threadStep_congr rfl rfl (threadStep_process (submitState s url slot))
  | cancel jid =>
      have hs' : (if ((s.jobs jid).isSome && s.pending_jobs.contains jid) = true
          then some (cancelRequest s jid) else none) = some s' := hs
      by_cases hcond : ((s.jobs jid).isSome && s.pending_jobs.contains jid) = true
      · rw [if_pos hcond] at hs'
        injection hs' with hs'
        rw [← hs']
        by_cases ha : (isStarted s jid && (s.pending_jobs.head? == some jid)) = true
        · rw [cancelRequest_eq_active s jid ha]
          exact threadStep_congr (cancelJobRefs_thread s jid).1
            (cancelJobRefs_thread s jid).2 (threadStep_removeFront (cancelJobRefs s jid))
        · replace ha : (isStarted s jid && (s.pending_jobs.head? == some jid)) = false := by
            simpa using ha
          rw [cancelRequest_eq_inactive s jid ha]
          exact Or.inl ⟨(cancelJobRefs_thread s jid).1, (cancelJobRefs_thread s jid).2⟩
      · rw [if_neg hcond] at hs'; cases hs'
  | setPacByUrl u =>
      have hs' : some (setPacScriptHelper s u 0) = some s' := hs
      injection hs' with hs'
      rw [← hs']
      exact threadStep_post (threadStep_ensure s) rfl rfl
  | setPacByData b =>
      have hs' : some (setPacScriptHelper s 0 b) = some s' := hs
      injection hs' with hs'
      rw [← hs']
      exact threadStep_post (threadStep_ensure s) rfl rfl
  | workerStep rv info =>
      obtain ⟨h1, h2⟩ := workerRunFront_thread hs
      exact Or.inl ⟨h1, h2⟩
  | originStep cbC =>
      have hs' : originRunFront s cbC = some s' := hs
      unfold originRunFront at hs'
      split at hs'
      · exact absurd hs' (by simp)
      next jid rv rest hoq =>
        injection hs' with hs'
        rw [← hs']
        exact threadStep_congr rfl rfl
          (threadStep_queryComplete { s with originQueue := rest } jid rv cbC)

/-! ### The destructor -/

theorem dtorCancelAll_events (pend : List Nat) (jobs : Nat → Option Job) :
    (dtorCancelAll pend jobs).2 = pend.map TEvent.jobCancelled := by
  induction pend generalizing jobs with
  | nil => rfl
  | cons jid rest ih =>
      show TEvent.jobCancelled jid :: (dtorCancelAll rest _).2 = _
      rw [ih]
      rfl

theorem dtorCancelAll_mono (pend : List Nat) (jobs : Nat → Option Job) (k : Nat)
    (hk : ((jobs k).map Job.cleared).getD false = true) :
    (((dtorCancelAll pend jobs).1 k).map Job.cleared).getD false = true := by
  induction pend generalizing jobs with
  | nil => exact hk
  | cons jid rest ih =>
      show (((dtorCancelAll rest (fun k' =>
        if k' = jid then (jobs jid).map Job.cancel else jobs k')).1 k).map
          Job.cleared).getD false = true
      apply ih
      by_cases hkj : k = jid
      · rw [if_pos hkj, ← hkj]
        cases hj : jobs k with
        | none => rw [hj] at hk; cases hk
        | some j => simp [Job.cancel, Job.cleared]
      · rw [if_neg hkj]
        exact hk

theorem dtorCancelAll_clears (pend : List Nat) (jobs : Nat → Option Job)
    (halloc : ∀ j ∈ pend, (jobs j).isSome) :
    ∀ j ∈ pend, (((dtorCancelAll pend jobs).1 j).map Job.cleared).getD false = true := by
  induction pend generalizing jobs with
  | nil => intro j hj; cases hj
  | cons jid rest ih =>
      intro j hj
      show (((dtorCancelAll rest (fun k' =>
        if k' = jid then (jobs jid).map Job.cancel else jobs k')).1 j).map
          Job.cleared).getD false = true
      have hupd : ∀ x ∈ rest, ((fun k' =>
          if k' = jid then (jobs jid).map Job.cancel else jobs k') x).isSome := by
        intro x hx
        by_cases hxj : x = jid
        · rw [hxj]
          simp only [if_pos rfl]
          have := halloc jid (List.mem_cons_self jid rest)
          cases hj' : jobs jid with
          | none => rw [hj'] at this; cases this
          | some jj => rfl
        · simp only [if_neg hxj]
          exact halloc x (List.mem_cons_of_mem jid hx)
      rcases List.mem_cons.mp hj with hja | hjr
      · apply dtorCancelAll_mono
        rw [hja]
        simp only [if_pos rfl]
        have := halloc jid (List.mem_cons_self jid rest)
        cases hj' : jobs jid with
        | none => rw [hj'] at this; cases this
        | some jj => simp [Job.cancel, Job.cleared]
      · exact ih _ hupd j hjr


/-! ### The claims -/

/-- C1: in every reachable state, at most one Job in the pending queue
is started and it is the Job at the front of the queue; the log of
started jobs is strictly increasing in handle order (handles are
assigned in submission order), so Jobs begin executing in strict FIFO
submission order; and a started Job's handle is a lower bound for every
Job still in the queue, so a later-submitted Job never starts before
every earlier-submitted, not-yet-cancelled Job has completed or been
cancelled (left the queue). -/
theorem c1_fifo_single_flight (s : State) (h : Reachable s) :
    (∀ j ∈ s.pending_jobs, isStarted s j = true → s.pending_jobs.head? = some j) ∧
    (∀ i ∈ s.pending_jobs, ∀ j ∈ s.pending_jobs,
        isStarted s i = true → isStarted s j = true → i = j) ∧
    s.startedLog.Pairwise (· < ·) ∧
    (∀ j, isStarted s j = true → ∀ i ∈ s.pending_jobs, j ≤ i) := by
  have hinv := inv_reachable h
  refine ⟨?_, ?_, hinv.startedChain, hinv.startedMin⟩
  · intro j hj hst
    exact activeFront hinv.toPreInv hst hj
  · intro i hi j hj hsi hsj
    have h1 := hinv.startedMin i hsi j hj
    have h2 := hinv.startedMin j hsj i hi
    omega

/-- Witness for C1 at the concrete reachable state exS1. -/
theorem c1_witness :
    (∀ j ∈ exS1.pending_jobs, isStarted exS1 j = true →
        exS1.pending_jobs.head? = some j) ∧
    (∀ i ∈ exS1.pending_jobs, ∀ j ∈ exS1.pending_jobs,
        isStarted exS1 i = true → isStarted exS1 j = true → i = j) ∧
    exS1.startedLog.Pairwise (· < ·) ∧
    (∀ j, isStarted exS1 j = true → ∀ i ∈ exS1.pending_jobs, j ≤ i) :=
  c1_fifo_single_flight exS1 ⟨false, fun _ => 0, [Action.submit 5 0], rfl⟩

/-- C2: once CancelRequest has cancelled a Job, in any continuation of
the execution the Job stays cancelled and no further event runs its
completion callback, writes its output slot, or touches the Dispatcher
on its behalf — even if the worker-side engine call was still in flight
and later produces a success code. -/
theorem c2_cancelled_never_fires (s : State) (jid : Nat) (acts : List Action)
    (s' : State) (h : Reachable s) (hc : wasCancelled s jid = true)
    (hr : run s acts = some s') :
    wasCancelled s' jid = true ∧
    ∃ t, s'.events = s.events ++ t ∧ ∀ e ∈ t, touchesJob jid e = false := by
  have main : ∀ (l : List Action) (s0 : State), Inv s0 → wasCancelled s0 jid = true →
      ∀ s1, run s0 l = some s1 →
        wasCancelled s1 jid = true ∧
        ∃ t, s1.events = s0.events ++ t ∧ ∀ e ∈ t, touchesJob jid e = false := by
    intro l
    induction l with
    | nil =>
        intro s0 hinv hcc s1 hrr
        have hrr' : some s0 = some s1 := hrr
        injection hrr' with hrr'
        rw [← hrr']
        exact ⟨hcc, [], by simp, by simp⟩
    | cons a rest ih =>
        intro s0 hinv hcc s1 hrr
        have hrr' : (step s0 a).bind (fun sx => run sx rest) = some s1 := hrr
        cases hstep : step s0 a with
        | none => rw [hstep] at hrr'; cases hrr'
        | some sx =>
            rw [hstep] at hrr'
            obtain ⟨hc1, t1, ht1, hall1⟩ := c2_step hinv hcc hstep
            obtain ⟨hc2, t2, ht2, hall2⟩ := ih sx (inv_step hinv hstep) hc1 s1 hrr'
            refine ⟨hc2, t1 ++ t2, by rw [ht2, ht1, List.append_assoc], ?_⟩
            intro e he
            rcases List.mem_append.mp he with he | he
            · exact hall1 e he
            · exact hall2 e he
  exact main acts s (inv_reachable h) hc s' hr

/-- Witness for C2: job 1 is cancelled in exS3; running the worker and
the origin loop afterwards never touches job 1. -/
theorem c2_witness :
    wasCancelled exS5 1 = true ∧
    ∃ t, exS5.events = exS3.events ++ t ∧ ∀ e ∈ t, touchesJob 1 e = false :=
  c2_cancelled_never_fires exS3 1 [Action.workerStep 1 7, Action.originStep false] exS5
    ⟨false, fun _ => 0, [Action.submit 5 0, Action.submit 6 1, Action.cancel 1], rfl⟩
    rfl rfl

/-- C3: CancelRequest on the started (active, front-of-queue) Job marks
it cancelled, pops the queue and dispatches the new head if any (its
DoQuery is posted to the worker); CancelRequest on a queued, not
started Job cancels and erases only that Job: every other Job record,
the worker queue, the origin queue and the started front Job are
untouched. -/
theorem c3_cancel_request (s : State) (h : Reachable s) (jid : Nat)
    (hmem : jid ∈ s.pending_jobs) :
    (isStarted s jid = true →
        wasCancelled (cancelRequest s jid) jid = true ∧
        (cancelRequest s jid).pending_jobs = s.pending_jobs.tail ∧
        (cancelRequest s jid).originQueue = s.originQueue ∧
        (∀ f, s.pending_jobs.tail.head? = some f →
            isStarted (cancelRequest s jid) f = true ∧
            (cancelRequest s jid).workerQueue = s.workerQueue ++ [WTask.doQuery f]) ∧
        (s.pending_jobs.tail = [] →
            (cancelRequest s jid).workerQueue = s.workerQueue)) ∧
    (isStarted s jid = false →
        wasCancelled (cancelRequest s jid) jid = true ∧
        (cancelRequest s jid).pending_jobs = s.pending_jobs.erase jid ∧
        (∀ k, k ≠ jid → (cancelRequest s jid).jobs k = s.jobs k) ∧
        (cancelRequest s jid).workerQueue = s.workerQueue ∧
        (cancelRequest s jid).originQueue = s.originQueue ∧
        (∀ f, s.pending_jobs.head? = some f → f ≠ jid ∧
            (cancelRequest s jid).pending_jobs.head? = some f ∧
            isStarted (cancelRequest s jid) f = true)) := by
  have hinv := inv_reachable h
  constructor
  · intro hst
    exact cancelRequest_spec_active hinv hmem hst
  · intro hns
    exact cancelRequest_spec_inactive hinv hmem hns

/-- Witness for C3: cancelling the queued, not-started job 1 of exS2. -/
theorem c3_witness :
    (isStarted exS2 1 = true →
        wasCancelled (cancelRequest exS2 1) 1 = true ∧
        (cancelRequest exS2 1).pending_jobs = exS2.pending_jobs.tail ∧
        (cancelRequest exS2 1).originQueue = exS2.originQueue ∧
        (∀ f, exS2.pending_jobs.tail.head? = some f →
            isStarted (cancelRequest exS2 1) f = true ∧
            (cancelRequest exS2 1).workerQueue = exS2.workerQueue ++ [WTask.doQuery f]) ∧
        (exS2.pending_jobs.tail = [] →
            (cancelRequest exS2 1).workerQueue = exS2.workerQueue)) ∧
    (isStarted exS2 1 = false →
        wasCancelled (cancelRequest exS2 1) 1 = true ∧
        (cancelRequest exS2 1).pending_jobs = exS2.pending_jobs.erase 1 ∧
        (∀ k, k ≠ 1 → (cancelRequest exS2 1).jobs k = exS2.jobs k) ∧
        (cancelRequest exS2 1).workerQueue = exS2.workerQueue ∧
        (cancelRequest exS2 1).originQueue = exS2.originQueue ∧
        (∀ f, exS2.pending_jobs.head? = some f → f ≠ 1 ∧
            (cancelRequest exS2 1).pending_jobs.head? = some f ∧
            isStarted (cancelRequest exS2 1) f = true)) :=
  c3_cancel_request exS2
    ⟨false, fun _ => 0, [Action.submit 5 0, Action.submit 6 1], rfl⟩ 1 (by decide)

/-- C4: when the origin loop delivers the completion of a non-cancelled
Job, the completion callback runs exactly once (now, and its count
stays 1 in every continuation) carrying the engine's result code
unmodified; the caller's output slot is written from the Job's scratch
buffer when the code is non-negative, and on a negative code every
output slot is unchanged from its pre-call value. -/
theorem c4_completion_delivery (s s' : State) (h : Reachable s) (jid : Nat) (rv : Int)
    (rest : List OTask) (j0 : Job) (slot : Nat) (cbC : Bool)
    (hq : s.originQueue = OTask.queryComplete jid rv :: rest)
    (hnc : wasCancelled s jid = false)
    (hj : s.jobs jid = some j0) (hslot : j0.results = some slot)
    (hs : originRunFront s cbC = some s') :
    Event.callbackRun jid rv ∈ s'.events ∧
    cbCount s' jid = 1 ∧
    (∀ acts s'', run s' acts = some s'' → cbCount s'' jid = 1) ∧
    (OK ≤ rv → s'.slots slot = j0.results_buf ∧
        Event.outputWritten jid slot j0.results_buf ∈ s'.events ∧
        (∀ k, k ≠ slot → s'.slots k = s.slots k)) ∧
    (rv < OK → ∀ k, s'.slots k = s.slots k) := by
  have hinv := inv_reachable h
  obtain ⟨m1, m2, m3, m4⟩ := originRunFront_spec hinv hq hnc hj hslot hs
  refine ⟨m1, m2, ?_, m3, m4⟩
  intro acts s'' hrun
  have hreach' : Reachable s' := reachable_step h (a := Action.originStep cbC) hs
  have hinv'' := inv_reachable (reachable_run hreach' hrun)
  have hle : cbCount s' jid ≤ cbCount s'' jid := cbCount_le_run hrun jid
  have hub := hinv''.countsLe jid
  omega

/-- Witness for C4: delivering job 0's completion with code 1 in exS4
writes slot 0 with the scratch value 7 and runs the callback once. -/
theorem c4_witness :
    Event.callbackRun 0 1 ∈ exS5.events ∧
    cbCount exS5 0 = 1 ∧
    (∀ acts s'', run exS5 acts = some s'' → cbCount s'' 0 = 1) ∧
    (OK ≤ 1 → exS5.slots 0 =
        ({ coordinator := true, callback := true, results := some 0, url := 5,
           is_started := true, results_buf := 7 } : Job).results_buf ∧
        Event.outputWritten 0 0
          ({ coordinator := true, callback := true, results := some 0, url := 5,
             is_started := true, results_buf := 7 } : Job).results_buf ∈ exS5.events ∧
        (∀ k, k ≠ 0 → exS5.slots k = exS4.slots k)) ∧
    ((1 : Int) < OK → ∀ k, exS5.slots k = exS4.slots k) :=
  c4_completion_delivery exS4 exS5
    ⟨false, fun _ => 0, [Action.submit 5 0, Action.submit 6 1, Action.cancel 1,
      Action.workerStep 1 7], rfl⟩
    0 1 []
    { coordinator := true, callback := true, results := some 0, url := 5,
      is_started := true, results_buf := 7 }
    0 false rfl rfl rfl rfl rfl

/-- C5: GetProxyForURL enqueues a new Job at the tail of the pending
queue, returns ERR_IO_PENDING with the new handle, never runs any
completion callback or writes any output slot synchronously; if the
queue was empty the new Job becomes head, is dispatched to the worker
(its DoQuery posted), starting the worker thread; otherwise the new Job
is not started and the worker queue is untouched. -/
theorem c5_submit_spec (s : State) (h : Reachable s) (url slot : Nat) :
    (getProxyForURL s url slot).1 = ERR_IO_PENDING ∧
    (getProxyForURL s url slot).2.1 = s.next_job_id ∧
    (getProxyForURL s url slot).2.2.pending_jobs = s.pending_jobs ++ [s.next_job_id] ∧
    (getProxyForURL s url slot).2.2.originQueue = s.originQueue ∧
    (getProxyForURL s url slot).2.2.slots = s.slots ∧
    (∀ y, cbCount (getProxyForURL s url slot).2.2 y = cbCount s y) ∧
    (∃ jb, (getProxyForURL s url slot).2.2.jobs s.next_job_id = some jb ∧
        jb.callback = true ∧ jb.was_cancelled = false ∧ jb.url = url ∧
        jb.results = some slot) ∧
    (s.pending_jobs = [] →
        isStarted (getProxyForURL s url slot).2.2 s.next_job_id = true ∧
        (getProxyForURL s url slot).2.2.workerQueue =
          s.workerQueue ++ [WTask.doQuery s.next_job_id] ∧
        (getProxyForURL s url slot).2.2.thread_started = true) ∧
    (s.pending_jobs ≠ [] →
        isStarted (getProxyForURL s url slot).2.2 s.next_job_id = false ∧
        (getProxyForURL s url slot).2.2.workerQueue = s.workerQueue) :=
  getProxyForURL_spec (inv_reachable h) url slot

/-- Witness for C5 at the empty initial state. -/
theorem c5_witness :
    (getProxyForURL exInit 5 0).1 = ERR_IO_PENDING ∧
    (getProxyForURL exInit 5 0).2.1 = exInit.next_job_id ∧
    (getProxyForURL exInit 5 0).2.2.pending_jobs =
      exInit.pending_jobs ++ [exInit.next_job_id] ∧
    (getProxyForURL exInit 5 0).2.2.originQueue = exInit.originQueue ∧
    (getProxyForURL exInit 5 0).2.2.slots = exInit.slots ∧
    (∀ y, cbCount (getProxyForURL exInit 5 0).2.2 y = cbCount exInit y) ∧
    (∃ jb, (getProxyForURL exInit 5 0).2.2.jobs exInit.next_job_id = some jb ∧
        jb.callback = true ∧ jb.was_cancelled = false ∧ jb.url = 5 ∧
        jb.results = some 0) ∧
    (exInit.pending_jobs = [] →
        isStarted (getProxyForURL exInit 5 0).2.2 exInit.next_job_id = true ∧
        (getProxyForURL exInit 5 0).2.2.workerQueue =
          exInit.workerQueue ++ [WTask.doQuery exInit.next_job_id] ∧
        (getProxyForURL exInit 5 0).2.2.thread_started = true) ∧
    (exInit.pending_jobs ≠ [] →
        isStarted (getProxyForURL exInit 5 0).2.2 exInit.next_job_id = false ∧
        (getProxyForURL exInit 5 0).2.2.workerQueue = exInit.workerQueue) :=
  c5_submit_spec exInit ⟨false, fun _ => 0, [], rfl⟩ 5 0

/-- C6: in the completion path, the queue is advanced (front popped)
only if the Job is still not cancelled after the callback returned: if
the callback cancelled the Job, the pending queue, the worker queue and
the started-jobs log are untouched and no jobTouchedDispatcher event is
emitted; if the callback did not cancel it, the front is popped and the
Job does touch the Dispatcher. -/
theorem c6_recheck_after_callback (s s' : State) (h : Reachable s) (jid : Nat)
    (rv : Int) (rest : List OTask) (cbC : Bool)
    (hq : s.originQueue = OTask.queryComplete jid rv :: rest)
    (hnc : wasCancelled s jid = false)
    (hs : originRunFront s cbC = some s') :
    (cbC = true →
        s'.pending_jobs = s.pending_jobs ∧ s'.workerQueue = s.workerQueue ∧
        s'.startedLog = s.startedLog ∧
        ∃ t, s'.events = s.events ++ t ∧ Event.jobTouchedDispatcher jid ∉ t) ∧
    (cbC = false →
        s'.pending_jobs = s.pending_jobs.tail ∧
        ∃ t, s'.events = s.events ++ t ∧ Event.jobTouchedDispatcher jid ∈ t) := by
  have hinv := inv_reachable h
  rw [originRunFront_eq s jid rv rest cbC hq] at hs
  injection hs with hs
  subst hs
  have hq1 : 1 ≤ qCount s jid := by
    simp [qCount, hq, List.countP_cons, isQCFor]
  have hst : isStarted s jid = true := by
    by_contra hns
    have := (hinv.counts0 jid (by simpa using hns)).2.1
    omega
  have hsome : (({ s with originQueue := rest } : State).jobs jid).isSome := by
    show (s.jobs jid).isSome
    rw [isStarted_mk] at hst
    cases hj : s.jobs jid with
    | none => rw [hj] at hst; cases hst
    | some j => rfl
  have hnc0 : wasCancelled { s with originQueue := rest } jid = false := hnc
  constructor
  · intro hcb
    subst hcb
    obtain ⟨p1, p2, p3, p4⟩ :=
      queryComplete_reentrant_spec { s with originQueue := rest } jid rv hnc0 hsome
    exact ⟨p1, p2, p3, p4⟩
  · intro hcb
    subst hcb
    obtain ⟨p1, p2⟩ :=
      queryComplete_advance_spec { s with originQueue := rest } jid rv hnc0
    exact ⟨p1, p2⟩

/-- Witness for C6: delivering job 0's completion in exS4 with a
callback that cancels the job leaves the queue alone. -/
theorem c6_witness :
    (true = true →
        exS5b.pending_jobs = exS4.pending_jobs ∧ exS5b.workerQueue = exS4.workerQueue ∧
        exS5b.startedLog = exS4.startedLog ∧
        ∃ t, exS5b.events = exS4.events ++ t ∧ Event.jobTouchedDispatcher 0 ∉ t) ∧
    (true = false →
        exS5b.pending_jobs = exS4.pending_jobs.tail ∧
        ∃ t, exS5b.events = exS4.events ++ t ∧ Event.jobTouchedDispatcher 0 ∈ t) :=
  c6_recheck_after_callback exS4 exS5b
    ⟨false, fun _ => 0, [Action.submit 5 0, Action.submit 6 1, Action.cancel 1,
      Action.workerStep 1 7], rfl⟩
    0 1 [] true rfl rfl rfl

/-- C7: destroying the Dispatcher cancels (clears the references of)
every Job still in the pending queue, each cancellation occurring
before the Worker is released, and the Worker is released before the
Resolution Engine. -/
theorem c7_teardown (s : State) (h : Reachable s) :
    (∀ j ∈ s.pending_jobs,
        (((destructor s).1 j).map Job.cleared).getD false = true) ∧
    ∃ l, (destructor s).2 = l ++ [TEvent.workerReleased, TEvent.resolverReleased] ∧
      ∀ j ∈ s.pending_jobs, TEvent.jobCancelled j ∈ l := by
  have hinv := inv_reachable h
  constructor
  · intro j hj
    have halloc : ∀ x ∈ s.pending_jobs, (s.jobs x).isSome := fun x hx =>
      (hinv.alloc x).mpr (hinv.pendingAlloc x hx)
    exact dtorCancelAll_clears s.pending_jobs s.jobs halloc j hj
  · refine ⟨s.pending_jobs.map TEvent.jobCancelled, ?_, ?_⟩
    · show (dtorCancelAll s.pending_jobs s.jobs).2 ++ _ = _
      rw [dtorCancelAll_events]
    · intro j hj
      exact List.mem_map_of_mem TEvent.jobCancelled hj

/-- Witness for C7 at exS2, whose pending queue holds jobs 0 and 1. -/
theorem c7_witness :
    (∀ j ∈ exS2.pending_jobs,
        (((destructor exS2).1 j).map Job.cleared).getD false = true) ∧
    ∃ l, (destructor exS2).2 = l ++ [TEvent.workerReleased, TEvent.resolverReleased] ∧
      ∀ j ∈ exS2.pending_jobs, TEvent.jobCancelled j ∈ l :=
  c7_teardown exS2 ⟨false, fun _ => 0, [Action.submit 5 0, Action.submit 6 1], rfl⟩

/-- C8 counterexample: in the c8Acts trace, the query job 1 (url 11) is
submitted by the second action, before the configure-by-data call (the
third action); yet the Worker executes the SetPacScriptTask before job
1's DoQuery, because the configure task is posted to the Worker at call
time while job 1's query is only posted when it reaches the head of the
queue.  This refutes the claim that a query submitted before a
configure call is executed on the Worker before it. -/
theorem c8_counterexample :
    c8Acts.take 3 = [Action.submit 10 0, Action.submit 11 1, Action.setPacByData 7] ∧
    run (initState true (fun _ => 0)) c8Acts = some c8Final ∧
    c8Final.executedLog = [WTask.doQuery 0, WTask.setPacScript 0 7, WTask.doQuery 1] :=
  ⟨rfl, rfl, rfl⟩

/-- C8 amended: the Worker executes its tasks in exactly the order they
were posted — in every reachable state the executed log followed by the
still-queued tasks equals the posted log.  Configure calls are posted
at submission time and execute in submission order relative to each
other and before any query dispatched after them; but a query submitted
before a configure call may execute after it, because its DoQuery is
posted only when the job reaches the head of the queue. -/
theorem c8_amended_post_order (s : State) (h : Reachable s) :
    s.executedLog ++ s.workerQueue = s.postedLog :=
  (inv_reachable h).logInv

/-- Witness for the amended C8 at the final state of the c8Acts trace. -/
theorem c8_amended_witness :
    c8Final.executedLog ++ c8Final.workerQueue = c8Final.postedLog :=
  c8_amended_post_order c8Final ⟨true, fun _ => 0, c8Acts, rfl⟩

/-- C9: the worker thread is absent (never created) in the initial
state; in every reachable state it has been created at most once and it
exists exactly when the creation count is one; EnsureThreadStarted is a
no-op once the thread exists; and every step either leaves the thread
fields unchanged or performs the single lazy start. -/
theorem c9_worker_lifecycle :
    (∀ epb slots0, (initState epb slots0).thread_started = false ∧
        (initState epb slots0).thread_start_count = 0) ∧
    (∀ s, Reachable s → s.thread_start_count ≤ 1 ∧
        (s.thread_started = true ↔ s.thread_start_count = 1) ∧
        (s.thread_started = true → ensureThreadStarted s = s)) ∧
    (∀ s s' (a : Action), step s a = some s' → ThreadStep s s') := by
  refine ⟨fun epb slots0 => ⟨rfl, rfl⟩, ?_, fun s s' a hs => threadStep_step hs⟩
  intro s h
  have hinv := inv_reachable h
  have ht := hinv.threadCount
  refine ⟨?_, ?_, ?_⟩
  · by_cases hb : s.thread_started = true
    · rw [hb] at ht; simp at ht; omega
    · replace hb : s.thread_started = false := by simpa using hb
      rw [hb] at ht; simp at ht; omega
  · constructor
    · intro hb; rw [hb] at ht; simpa using ht
    · intro hcnt
      by_contra hb
      replace hb : s.thread_started = false := by simpa using hb
      rw [hb] at ht
      simp at ht
      omega
  · intro hb
    exact ensureThreadStarted_of_started s hb

/-- Witness for C9 at exS1 and for a concrete step from exInit. -/
theorem c9_witness :
    (exS1.thread_start_count ≤ 1 ∧
      (exS1.thread_started = true ↔ exS1.thread_start_count = 1) ∧
      (exS1.thread_started = true → ensureThreadStarted exS1 = exS1)) ∧
    ThreadStep exInit exS1 :=
  ⟨c9_worker_lifecycle.2.1 exS1 ⟨false, fun _ => 0, [Action.submit 5 0], rfl⟩,
   c9_worker_lifecycle.2.2 exInit exS1 (Action.submit 5 0) rfl⟩

/-- C10: every Job record encodes cancellation as a null callback
(was_cancelled is the negation of the callback being non-null); a
freshly submitted Job carries a non-null callback and is not cancelled;
and in every reachable state a Job is cancelled exactly when a
Job::Cancel call (a cancelled event) has occurred for it. -/
theorem c10_cancelled_encoding (s : State) (h : Reachable s) :
    (∀ k jb, s.jobs k = some jb → jb.was_cancelled = !jb.callback) ∧
    (∀ url slot, ∃ jb,
        (getProxyForURL s url slot).2.2.jobs s.next_job_id = some jb ∧
        jb.callback = true ∧ jb.was_cancelled = false) ∧
    (∀ k, wasCancelled s k = true ↔ Event.cancelled k ∈ s.events) := by
  have hinv := inv_reachable h
  refine ⟨fun k jb _ => rfl, ?_, hinv.cancelEvents⟩
  intro url slot
  obtain ⟨_, _, _, _, _, _, ⟨jb, hjb, hcb, hwc, _, _⟩, _, _⟩ :=
    getProxyForURL_spec hinv url slot
  exact ⟨jb, hjb, hcb, hwc⟩

/-- Witness for C10 at exS1. -/
theorem c10_witness :
    (∀ k jb, exS1.jobs k = some jb → jb.was_cancelled = !jb.callback) ∧
    (∀ url slot, ∃ jb,
        (getProxyForURL exS1 url slot).2.2.jobs exS1.next_job_id = some jb ∧
        jb.callback = true ∧ jb.was_cancelled = false) ∧
    (∀ k, wasCancelled exS1 k = true ↔ Event.cancelled k ∈ exS1.events) :=
  c10_cancelled_encoding exS1 ⟨false, fun _ => 0, [Action.submit 5 0], rfl⟩

end STPR
